import Mathlib

/-!
A verification development for the RgEdt registry-editor model layer
(`rgedt/model.py`, `rgedt/common.py`), embedded shallowly in Lean 4.

Python strings are modelled as Lean `String`; all string operations the
source uses (`split`, `join`, `startswith`, `rstrip`, `replace`, `lower`,
lexicographic `sorted`) are implemented here on `String.data` so that
their behaviour matches CPython's semantics on the inputs the program
handles (ASCII paths).  Machine integers do not occur.  Exceptions are
modelled with `Except`.  The registry store is the XML-backed fixture of
`rgedt/tests/winreg_mock.py`, which is the store implementation shipped
in the repository.
-/

/-- ASCII lower-casing of one character, as `str.lower` acts on the
ASCII range (the only range exercised by registry paths). -/
def pyCharLower (c : Char) : Char :=
  if 'A' ≤ c ∧ c ≤ 'Z' then Char.ofNat (c.toNat + 32) else c

/-- Model of Python `str.lower()` (ASCII range). -/
def pyLower (s : String) : String :=
  String.mk (s.data.map pyCharLower)

/-- Lexicographic comparison of character lists by code point, the order
Python uses to compare strings. -/
def charListLe : List Char → List Char → Bool
  | [], _ => true
  | _ :: _, [] => false
  | a :: as, b :: bs =>
    if a < b then true
    else if b < a then false
    else charListLe as bs

/-- Model of Python string `<=` (lexicographic by code point). -/
def pyLe (s t : String) : Bool :=
  charListLe s.data t.data

/-- Model of Python `str.startswith`. -/
def pyStartsWith (s pre : String) : Bool :=
  pre.data.isPrefixOf s.data

/-- Insert into a sorted list, keeping order; building block of the
model of Python `sorted`. -/
def insertLe (x : String) : List String → List String
  | [] => [x]
  | y :: ys => if pyLe x y then x :: y :: ys else y :: insertLe x ys

/-- Model of Python `sorted` on a list of strings (insertion sort; any
correct sort agrees with CPython's stable sort because equal strings are
identical). -/
def pySorted : List String → List String
  | [] => []
  | x :: xs => insertLe x (pySorted xs)

/-- Model of Python `str.rstrip("\\")`: drop every trailing backslash. -/
def rstripSep (s : String) : String :=
  String.mk ((s.data.reverse.dropWhile (fun c => c = '\\')).reverse)

/-- Core of Python `str.replace(pat, repl)` on character lists: scan left
to right, replacing each non-overlapping occurrence of `pat` (nonempty,
as in the one call site `key.replace("Computer\\", "")`).  The first
argument is fuel bounding the scan length; the wrapper passes the length
of the scanned list, which always suffices. -/
def replCore (pat repl : List Char) : Nat → List Char → List Char
  | _, [] => []
  | 0, l => l
  | f + 1, c :: rest =>
    if pat.isPrefixOf (c :: rest) ∧ pat ≠ [] then
      repl ++ replCore pat repl f ((c :: rest).drop pat.length)
    else
      c :: replCore pat repl f rest

/-- Model of Python `str.replace(pat, repl)` for nonempty `pat`. -/
def pyReplace (s pat repl : String) : String :=
  String.mk (replCore pat.data repl.data s.data.length s.data)

/-- Does `pat` occur as a contiguous substring of `l`? -/
def hasSubstr (pat : List Char) : List Char → Bool
  | [] => pat.isEmpty
  | c :: rest => pat.isPrefixOf (c :: rest) || hasSubstr pat rest

/-- Model of Python `str.split("\\")` on character lists (single-character
separator, as `REGISTRY_PATH_SEPARATOR` is one character).  Never returns
the empty list. -/
def pySplitCh (sep : Char) : List Char → List (List Char)
  | [] => [[]]
  | c :: rest =>
    if c = sep then [] :: pySplitCh sep rest
    else
      match pySplitCh sep rest with
      | [] => [[c]]
      | g :: gs => (c :: g) :: gs

/-- Model of Python `key_path.split(REGISTRY_PATH_SEPARATOR)`. -/
def mySplit (s : String) : List String :=
  (pySplitCh '\\' s.data).map String.mk

/-- Model of Python `REGISTRY_PATH_SEPARATOR.join(parts)`. -/
def myJoin : List String → String
  | [] => ""
  | [s] => s
  | s :: rest => s ++ "\\" ++ myJoin rest

/-- `Model._ROOT_KEY_SHORT`: the acronym table for registry hives. -/
def rootKeyShort : List (String × String) :=
  [("HKCR", "HKEY_CLASSES_ROOT"),
   ("HKCU", "HKEY_CURRENT_USER"),
   ("HKLM", "HKEY_LOCAL_MACHINE"),
   ("HKU", "HKEY_USERS"),
   ("HKCC", "HKEY_CURRENT_CONFIG")]

/-- Model of `Model._ROOT_KEY_SHORT_REGEX.sub(expand_root_key, path)`.

The compiled pattern is `^(HKCR)|^(HKCU)|^(HKLM)|^(HKU)|^(HKCC)`; the
replacement callback returns
`cls._ROOT_KEY_SHORT.get(match.group(1), match.group(1))`.  Group 1 is
bound only when the first alternative (`HKCR`) matched; for every other
acronym `match.group(1)` is `None`, and CPython's `re.sub` treats a
`None` result of the replacement callback as the empty replacement, so
the matched acronym is deleted from the string.  (Verified against
CPython 3.11: `re.sub` on `"HKLM\\SOFTWARE"` yields `"\\SOFTWARE"`.)
The pattern is anchored, so at most one substitution happens, at the
start of the string. -/
def expandRootKeySub (s : String) : String :=
  if pyStartsWith s "HKCR" then "HKEY_CLASSES_ROOT" ++ String.mk (s.data.drop 4)
  else if pyStartsWith s "HKCU" then String.mk (s.data.drop 4)
  else if pyStartsWith s "HKLM" then String.mk (s.data.drop 4)
  else if pyStartsWith s "HKU" then String.mk (s.data.drop 3)
  else if pyStartsWith s "HKCC" then String.mk (s.data.drop 4)
  else s

/-- `Model._normalize_key_string`: if the path starts with `"Computer\\"`,
remove the dummy root by `key.replace("Computer\\", "")` (which removes
every occurrence, this being Python's `str.replace`); otherwise return
the path unchanged. -/
def normalizeKeyString (key : String) : String :=
  if pyStartsWith key "Computer\\" then pyReplace key "Computer\\" "" else key

/-- One normalized-and-expanded entry of `expanded_key_paths` in
`Model._remove_contained_paths`: normalize, regex-expand the acronym,
strip trailing separators. -/
def expandedPath (p : String) : String :=
  rstripSep (expandRootKeySub (normalizeKeyString p))

/-- The `while` loop of `Model._remove_contained_paths`: repeatedly keep
the head of the sorted list and discard the following run of paths that
start with it (Python `str.startswith`, a plain string prefix test).
The first argument is fuel bounding the number of kept paths; the
wrapper passes the length of the list, which always suffices. -/
def reduceLoop : Nat → List String → List String
  | _, [] => []
  | 0, _ => []
  | f + 1, p :: rest => p :: reduceLoop f (rest.dropWhile (fun q => pyStartsWith q p))

/-- `Model._remove_contained_paths`: normalize/expand every path, sort,
and keep only paths not covered by an earlier kept path.  The Python
function returns a `set`; this model returns the kept paths as a list
(in sorted order), to be read as the set of its elements. -/
def removeContainedPaths (keyPaths : List String) : List String :=
  let expanded := pySorted (keyPaths.map expandedPath)
  reduceLoop expanded.length expanded

/-- The kinds of exception the embedded code can raise: `OSError` (from
the store), `RgEdtException`, `RuntimeError` (duplicate child or value),
and Python's `RecursionError` (the interpreter's recursion limit). -/
inductive BErr where
  | os
  | rgedt
  | runtime
  | recursionLimit
deriving DecidableEq, Repr

/-- The Python values the mock store can produce from a value node:
strings, integers, string lists (`REG_MULTI_SZ`) and byte strings
(`REG_BINARY`). -/
inductive PyVal where
  | str (s : String)
  | int (n : Int)
  | strList (l : List String)
  | bytes (b : List Nat)
deriving DecidableEq, Repr

def isPyDigit (c : Char) : Bool :=
  '0' ≤ c ∧ c ≤ '9'

def pyDigitVal (c : Char) : Nat :=
  c.toNat - '0'.toNat

def isPySpace (c : Char) : Bool :=
  c = ' ' ∨ c = '\t' ∨ c = '\n' ∨ c = '\r' ∨ c = '\x0b' ∨ c = '\x0c'

/-- Digit run of Python `int(str)` after the sign: decimal digits with
single underscores allowed between digits. -/
def parseDigitsGo (acc : Nat) : List Char → Option Nat
  | [] => some acc
  | '_' :: c :: rest =>
    if isPyDigit c then parseDigitsGo (acc * 10 + pyDigitVal c) rest else none
  | c :: rest =>
    if isPyDigit c then parseDigitsGo (acc * 10 + pyDigitVal c) rest else none

def parseDigits : List Char → Option Nat
  | [] => none
  | c :: rest => if isPyDigit c then parseDigitsGo (pyDigitVal c) rest else none

/-- Model of Python `int(s)` on the ASCII decimal forms the registry
fixture uses: optional surrounding whitespace, optional sign, decimal
digits with optional single underscores. -/
def parsePyInt (s : String) : Option Int :=
  let l := (s.data.dropWhile isPySpace).reverse.dropWhile isPySpace |>.reverse
  match l with
  | '-' :: rest => (parseDigits rest).map (fun n => -(n : Int))
  | '+' :: rest => (parseDigits rest).map (fun n => (n : Int))
  | _ => (parseDigits l).map (fun n => (n : Int))

def hexDigitVal (c : Char) : Option Nat :=
  if isPyDigit c then some (pyDigitVal c)
  else if 'a' ≤ c ∧ c ≤ 'f' then some (c.toNat - 'a'.toNat + 10)
  else if 'A' ≤ c ∧ c ≤ 'F' then some (c.toNat - 'A'.toNat + 10)
  else none

def hexPairsToBytes : List Char → Option (List Nat)
  | [] => some []
  | [_] => none
  | c1 :: c2 :: rest =>
    match hexDigitVal c1, hexDigitVal c2 with
    | some h, some l => (hexPairsToBytes rest).map (fun bs => (h * 16 + l) :: bs)
    | _, _ => none

/-- Model of Python `bytes.fromhex(s)`: whitespace ignored, then an even
run of hex digits. -/
def parseHexBytes (s : String) : Option (List Nat) :=
  hexPairsToBytes (s.data.filter (fun c => !isPySpace c))

/-- Model of Python `repr` of a string (used by `str` applied to a list
of strings): quote with a single quote unless the string contains one
and no double quote; escape the backslash, the quote, and the common
control characters. -/
def pyReprStr (s : String) : String :=
  let q : Char := if s.data.contains '\'' ∧ ¬ s.data.contains '"' then '"' else '\''
  let esc : Char → List Char := fun c =>
    if c = '\\' then ['\\', '\\']
    else if c = q then ['\\', q]
    else if c = '\n' then ['\\', 'n']
    else if c = '\r' then ['\\', 'r']
    else if c = '\t' then ['\\', 't']
    else [c]
  String.mk (q :: (s.data.flatMap esc) ++ [q])

/-- Model of Python `str(b)` for a bytes object (`repr` form `b'...'`);
printable ASCII shown directly, everything else hex-escaped. -/
def pyReprByte (n : Nat) : List Char :=
  let c := Char.ofNat n
  if c = '\\' then ['\\', '\\']
  else if c = '\'' then ['\\', '\'']
  else if 32 ≤ n ∧ n ≤ 126 then [c]
  else
    let hx := fun (k : Nat) => if k < 10 then Char.ofNat ('0'.toNat + k) else Char.ofNat ('a'.toNat + k - 10)
    ['\\', 'x', hx (n / 16), hx (n % 16)]

/-- Model of Python `str(value)` on the value domain, as used by
`RegistryValue.__eq__` (`str(self.data) == str(other.data)`). -/
def strOfPyVal : PyVal → String
  | .str s => s
  | .int n => toString n
  | .strList l => "[" ++ String.intercalate ", " (l.map pyReprStr) ++ "]"
  | .bytes b => "b" ++ String.mk ('\'' :: (b.flatMap pyReprByte) ++ ['\''])

/-- A `<value .../>` node of the mock registry XML: attributes `name`,
`data`, `type` (all strings). -/
structure XVal where
  name : String
  data : String
  vtype : String
deriving DecidableEq, Repr

/-- A `<key name='...'>` node of the mock registry XML: child key nodes
and value nodes, in document order. -/
inductive XKey where
  | mk (name : String) (subkeys : List XKey) (values : List XVal)

def XKey.name : XKey → String
  | .mk n _ _ => n

def XKey.subkeys : XKey → List XKey
  | .mk _ s _ => s

def XKey.values : XKey → List XVal
  | .mk _ _ v => v

/-- The mock registry database: the list of hive `<key>` nodes under the
`<registry>` root. -/
def Store := List XKey

/-- The integer attributes of the `winreg_mock` module, as fetched by
`getattr(registry.winreg, name)` and by `globals()[name]`. -/
def getattrIntConst (s : String) : Option Int :=
  [("HKEY_CLASSES_ROOT", (1 : Int)), ("HKEY_CURRENT_USER", 2),
   ("HKEY_LOCAL_MACHINE", 3), ("HKEY_USERS", 4),
   ("HKEY_PERFORMANCE_DATA", 5), ("HKEY_CURRENT_CONFIG", 6),
   ("HKEY_DYN_DATA", 7),
   ("KEY_QUERY_VALUE", 1), ("KEY_SET_VALUE", 2), ("KEY_CREATE_SUB_KEY", 4),
   ("KEY_ENUMERATE_SUB_KEYS", 8), ("KEY_NOTIFY", 16), ("KEY_CREATE_LINK", 32),
   ("KEY_ALL_ACCESS", 63), ("KEY_WRITE", 6), ("KEY_READ", 25), ("KEY_EXECUTE", 25),
   ("KEY_WOW64_64KEY", 1), ("KEY_WOW64_32KEY", 2),
   ("REG_BINARY", 1), ("REG_DWORD", 2), ("REG_DWORD_LITTLE_ENDIAN", 3),
   ("REG_DWORD_BIG_ENDIAN", 4), ("REG_EXPAND_SZ", 5), ("REG_LINK", 6),
   ("REG_MULTI_SZ", 7), ("REG_NONE", 8), ("REG_QWORD", 9),
   ("REG_QWORD_LITTLE_ENDIAN", 10), ("REG_RESOURCE_LIST", 11),
   ("REG_FULL_RESOURCE_DESCRIPTOR", 12), ("REG_RESOURCE_REQUIREMENTS_LIST", 13),
   ("REG_SZ", 14), ("_DEFAULT_MOD_TIME", 12345678)].lookup s

/-- Module attributes of `winreg_mock` that are not integers (imported
names, functions, the helper tables).  `getattr` succeeds on them, after
which `ConnectRegistry` fails its `_HKEY_MAPPING` lookup with `KeyError`
wrapped into `OSError`. -/
def moduleNonIntAttrs : List String :=
  ["Literal", "Optional", "Tuple", "namedtuple", "ET", "string", "random",
   "_HKEY_MAPPING", "_ACCESS_RIGHTS", "_NotImplemented", "_TypeRecord",
   "_TYPE_MAPPING", "_type_str_to_type", "_SEPARATOR", "InitRegistry",
   "PyHKEY", "ConnectRegistry", "CreateKey", "OpenKey", "QueryInfoKey",
   "EnumKey", "EnumValue", "SetValueEx", "QueryValueEx", "mock_winreg"]

/-- `Model._root_key_name_to_value`: `getattr(registry.winreg, root_key)`
wrapped so that a missing attribute raises `RgEdtException`.  A non-int
attribute is modelled as the sentinel `-1`, which no later `_HKEY_MAPPING`
lookup matches — observationally equal to the real object. -/
def rootKeyNameToValue (s : String) : Except BErr Int :=
  match getattrIntConst s with
  | some v => .ok v
  | none => if moduleNonIntAttrs.contains s then .ok (-1) else .error .rgedt

/-- `_HKEY_MAPPING` of `winreg_mock`. -/
def hkeyMapping (k : Int) : Option String :=
  [((1 : Int), "HKEY_CLASSES_ROOT"), (2, "HKEY_CURRENT_USER"),
   (3, "HKEY_LOCAL_MACHINE"), (4, "HKEY_USERS"), (5, "HKEY_PERFORMANCE_DATA"),
   (6, "HKEY_CURRENT_CONFIG"), (7, "HKEY_DYN_DATA")].lookup k

/-- First child key node with the given (exact, case-sensitive) name:
the semantics of the XPath lookup `key[@name='...']` used by the mock's
`ConnectRegistry` and `OpenKey`. -/
def findChild : List XKey → String → Option XKey
  | [], _ => none
  | k :: ks, n => if k.name = n then some k else findChild ks n

/-- `winreg_mock.ConnectRegistry(None, key)`: map the constant to a hive
name and find the hive node, `OSError` otherwise. -/
def connectRegistry (store : Store) (key : Int) : Except BErr XKey :=
  match hkeyMapping key with
  | none => .error .os
  | some hiveName =>
    match findChild store hiveName with
    | none => .error .os
    | some e => .ok e

/-- Walk a chain of child-key names, first match at each level: the
XPath `key[@name='a']/key[@name='b']/...` used by `OpenKey`. -/
def findPath : XKey → List String → Option XKey
  | e, [] => some e
  | e, s :: rest =>
    match findChild e.subkeys s with
    | some c => findPath c rest
    | none => none

/-- `winreg_mock.OpenKey(handle, sub_key)` (read access): the empty
sub-key returns the same element, otherwise split on the separator and
walk down; `none` models the `OSError` for a missing path. -/
def openSub (e : XKey) (path : String) : Option XKey :=
  if path = "" then some e else findPath e (mySplit path)

/-- Splitting on a multi-character separator, for Python
`x.split("\\n")` in the `REG_MULTI_SZ` parser (the separator is the two
characters backslash and `n`).  Fuel bounds the scan; the wrapper passes
the list length. -/
def splitSubCore (sep : List Char) : Nat → List Char → List (List Char)
  | _, [] => [[]]
  | 0, l => [l]
  | f + 1, c :: rest =>
    if sep.isPrefixOf (c :: rest) ∧ sep ≠ [] then
      [] :: splitSubCore sep f ((c :: rest).drop sep.length)
    else
      match splitSubCore sep f rest with
      | [] => [[c]]
      | g :: gs => (c :: g) :: gs

def pySplitStr (s sep : String) : List String :=
  (splitSubCore sep.data s.data.length s.data).map String.mk

/-- The data-conversion column of `winreg_mock._TYPE_MAPPING`, applied by
`EnumValue` to the `data` attribute: `str` for the string types, `int`
for the integer types, split for `REG_MULTI_SZ`, `bytes.fromhex` for
`REG_BINARY`, `_NotImplemented` (hence an error) for the rest. -/
def parseValData (c : Int) (data : String) : Option PyVal :=
  if c = 14 ∨ c = 5 then some (.str data)
  else if c = 2 ∨ c = 3 ∨ c = 9 ∨ c = 10 then (parsePyInt data).map .int
  else if c = 7 then some (.strList (pySplitStr data "\\n"))
  else if c = 1 then (parseHexBytes data).map .bytes
  else none

/-- `winreg_mock.EnumValue` on one value node: resolve the `type`
attribute through the module globals, convert the `data` attribute, and
return `(name, data, type)`; every failure is wrapped into `OSError`. -/
def enumValue (v : XVal) : Except BErr (String × PyVal × Int) :=
  match getattrIntConst v.vtype with
  | none => .error .os
  | some c =>
    match parseValData c v.data with
    | some pv => .ok (v.name, pv, c)
    | none => .error .os


/-- `common.RegistryValue`: a name, the converted data, and the raw
type constant (validated at construction). -/
structure RegVal where
  name : String
  data : PyVal
  dtypeRaw : Int
deriving DecidableEq, Repr

/-- The constructor check `RegistryValueType(data_type)`: the enumeration
members carry exactly the mock constants 1..14. -/
def mkRegistryValue (name : String) (data : PyVal) (dtype : Int) : Except BErr RegVal :=
  if 1 ≤ dtype ∧ dtype ≤ 14 then .ok ⟨name, data, dtype⟩ else .error .rgedt

/-- `RegistryValue.__eq__`: names compared lower-cased, data compared
through `str`, types compared as enumeration members (the raw constants
are in bijection with the members). -/
def regValEq (v w : RegVal) : Bool :=
  pyLower v.name == pyLower w.name
    && strOfPyVal v.data == strOfPyVal w.data
    && v.dtypeRaw == w.dtypeRaw

mutual
/-- `common.RegistryKey`: display name, the `_sub_keys` dict (keyed by
lower-cased child name, in insertion order), the `_values` dict (keyed
by lower-cased value name), and the `_is_explicit` flag. -/
inductive RegistryKey where
  | mk (name : String) (subKeys : RKList) (values : List (String × RegVal)) (isExplicit : Bool)
/-- The `_sub_keys` dict of a `RegistryKey`, as an insertion-ordered
association list (a separate inductive so that the recursive functions
below are structural and kernel-computable). -/
inductive RKList where
  | nil
  | cons (key : String) (node : RegistryKey) (rest : RKList)
end

def RegistryKey.name : RegistryKey → String
  | .mk n _ _ _ => n

def RegistryKey.subKeys : RegistryKey → RKList
  | .mk _ sk _ _ => sk

def RegistryKey.values : RegistryKey → List (String × RegVal)
  | .mk _ _ v _ => v

def RegistryKey.isExplicit : RegistryKey → Bool
  | .mk _ _ _ e => e

/-- Dict lookup in `_sub_keys` (first match; keys are unique in any
dict the code builds). -/
def RKList.find? : RKList → String → Option RegistryKey
  | .nil, _ => none
  | .cons key node rest, k => if key = k then some node else RKList.find? rest k

/-- Dict assignment `d[k] = v`: replace the first binding of `k`, or
append a new binding. -/
def RKList.set : RKList → String → RegistryKey → RKList
  | .nil, k, v => .cons k v .nil
  | .cons key node rest, k, v =>
    if key = k then .cons key v rest else .cons key node (RKList.set rest k v)

def RKList.length : RKList → Nat
  | .nil => 0
  | .cons _ _ rest => 1 + RKList.length rest

def RKList.keys : RKList → List String
  | .nil => []
  | .cons key _ rest => key :: RKList.keys rest

/-- Lookup in the `_values` dict. -/
def vLookup : List (String × RegVal) → String → Option RegVal
  | [], _ => none
  | (key, v) :: rest, k => if key = k then some v else vLookup rest k

/-- An empty `RegistryKey(name)` as `__init__` builds it. -/
def freshKey (name : String) : RegistryKey :=
  .mk name .nil [] false

/-- The dummy root `RegistryKey(name="Computer")`. -/
def computerRoot : RegistryKey :=
  freshKey "Computer"

/-- `RegistryKey.get_sub_key(name, create_if_missing=True)`: look up the
lower-cased name; if absent, create an empty child and insert it.
Returns the (possibly updated) parent together with the child the call
returns. -/
def getSubKeyCreate (k : RegistryKey) (n : String) : RegistryKey × RegistryKey :=
  match k.subKeys.find? (pyLower n) with
  | some c => (k, c)
  | none =>
    let c := freshKey n
    (.mk k.name (k.subKeys.set (pyLower n) c) k.values k.isExplicit, c)

/-- Write back a mutated child into its parent's `_sub_keys` dict (the
Python code mutates the shared child object in place; functionally the
parent is rebuilt with the updated child under the same dict key). -/
def setChild (k : RegistryKey) (keyLow : String) (c : RegistryKey) : RegistryKey :=
  .mk k.name (k.subKeys.set keyLow c) k.values k.isExplicit

/-- `RegistryKey._add_sub_key`: fail with `RuntimeError` if a child with
the same lower-cased name exists, otherwise insert. -/
def addSubKey (k : RegistryKey) (c : RegistryKey) : Except BErr RegistryKey :=
  match k.subKeys.find? (pyLower c.name) with
  | some _ => .error .runtime
  | none => .ok (.mk k.name (k.subKeys.set (pyLower c.name) c) k.values k.isExplicit)

/-- `RegistryKey.add_value`: fail with `RuntimeError` if a value with
the same lower-cased name exists, otherwise insert. -/
def addValue (k : RegistryKey) (v : RegVal) : Except BErr RegistryKey :=
  match vLookup k.values (pyLower v.name) with
  | some _ => .error .runtime
  | none => .ok (.mk k.name k.subKeys (k.values ++ [(pyLower v.name, v)]) k.isExplicit)

/-- `self._is_explicit = True` at the top of `_build_subkey_structure`. -/
def setExplicitTrue (k : RegistryKey) : RegistryKey :=
  .mk k.name k.subKeys k.values true

/-- Equality of `_values` dicts (Python dict `==`: same keys, equal
values; values compared by `RegistryValue.__eq__`). -/
def valuesDictEq (v1 v2 : List (String × RegVal)) : Bool :=
  v1.length == v2.length
    && v1.all (fun p =>
      match vLookup v2 p.1 with
      | some w => regValEq p.2 w
      | none => false)

mutual
/-- `RegistryKey.__eq__`: compares only the `_sub_keys` dict and the
`_values` dict (Python dict equality, recursing through `__eq__` on the
child keys); the `name` and `_is_explicit` fields do not participate. -/
def regKeyEq : RegistryKey → RegistryKey → Bool
  | .mk _ sk1 v1 _, .mk _ sk2 v2 _ =>
    sk1.length == sk2.length && rkSubOf sk1 sk2 && valuesDictEq v1 v2
/-- Every binding of the first dict is present in the second with an
`__eq__`-equal child. -/
def rkSubOf : RKList → RKList → Bool
  | .nil, _ => true
  | .cons key node rest, other =>
    (match other.find? key with
     | some node2 => regKeyEq node node2
     | none => false) && rkSubOf rest other
end

/-- Address-based lookup in the built tree: walk `_sub_keys` dict keys
(the dict keys are the lower-cased child names). -/
def nodeAt : RegistryKey → List String → Option RegistryKey
  | k, [] => some k
  | k, a :: rest =>
    match k.subKeys.find? a with
    | some c => nodeAt c rest
    | none => none

/-- The `_is_explicit` flag of the node at an address, if present. -/
def flagAt (t : RegistryKey) (addr : List String) : Option Bool :=
  (nodeAt t addr).map RegistryKey.isExplicit

mutual
/-- Every node of the subtree (the node itself included) carries
`_is_explicit = True`. -/
def allExplicit : RegistryKey → Bool
  | .mk _ sk _ e => e && allExplicitL sk
def allExplicitL : RKList → Bool
  | .nil => true
  | .cons _ node rest => allExplicit node && allExplicitL rest
end

def myNodup : List String → Bool
  | [] => true
  | x :: xs => decide (x ∉ xs) && myNodup xs

mutual
/-- Well-formedness of a built tree: in every node the `_sub_keys` dict
keys are pairwise distinct and so are the `_values` dict keys (the
Python dicts guarantee this by construction). -/
def treeWF : RegistryKey → Bool
  | .mk _ sk v _ => myNodup sk.keys && myNodup (v.map Prod.fst) && treeWFL sk
def treeWFL : RKList → Bool
  | .nil => true
  | .cons _ node rest => treeWF node && treeWFL rest
end

mutual
/-- Erase every field `RegistryKey.__eq__` ignores: all `name`s and all
`_is_explicit` flags, at every depth (the dict keys and values remain). -/
def stripMeta : RegistryKey → RegistryKey
  | .mk _ sk v _ => .mk "" (stripMetaL sk) v false
def stripMetaL : RKList → RKList
  | .nil => .nil
  | .cons key node rest => .cons key (stripMeta node) (stripMetaL rest)
end

/-- Extract the tree from a build result (defaulting to an empty root on
error); lets closed statements talk about the tree a successful build
returned. -/
def okTree : Except BErr RegistryKey → RegistryKey
  | .ok t => t
  | .error _ => computerRoot

/-- The flag at an address in a build result. -/
def resultFlagAt (r : Except BErr RegistryKey) (addr : List String) : Option Bool :=
  match r with
  | .ok t => flagAt t addr
  | .error _ => none

/-- `RegistryKey.__eq__` on two build results, when both succeeded. -/
def exceptRegKeyEq : Except BErr RegistryKey → Except BErr RegistryKey → Option Bool
  | .ok t1, .ok t2 => some (regKeyEq t1 t2)
  | _, _ => none

/-- The value loop of `_build_subkey_structure`: for each value node in
document order, `EnumValue`, construct the `RegistryValue`, and
`add_value` it to the current key. -/
def addValuesLoop : List XVal → RegistryKey → Except BErr RegistryKey
  | [], k => .ok k
  | v :: vs, k =>
    match enumValue v with
    | .error e => .error e
    | .ok (nm, data, c) =>
      match mkRegistryValue nm data c with
      | .error e => .error e
      | .ok rv =>
        match addValue k rv with
        | .error e => .error e
        | .ok k' => addValuesLoop vs k'

/-- The child loop of `_build_subkey_structure`: for each `EnumKey`
name in document order, `get_sub_key(..., create_if_missing=True)` and
recurse (the recursive call is passed in as `rec`, instantiated with the
builder at one fuel step less). -/
def bssChildrenGo
    (rec : XKey → RegistryKey → Option String → Except BErr RegistryKey)
    (elem : XKey) : List String → RegistryKey → Except BErr RegistryKey
  | [], acc => .ok acc
  | n :: ns, acc =>
    let p := getSubKeyCreate acc n
    match rec elem p.2 none with
    | .error e => .error e
    | .ok node => bssChildrenGo rec elem ns (setChild p.1 (pyLower n) node)

/-- `Model._build_subkey_structure(base_key_handle, current_key,
current_key_name)`: resolve the name, set `_is_explicit`, open the key
under the base handle, then mirror children and values recursively.

The fuel models CPython's recursion limit: the Python original recurses
once per tree level and a store with a cyclic name resolution (an
empty-named child opens its own parent) hits `RecursionError`; running
out of fuel is that error. -/
def bss : Nat → XKey → RegistryKey → Option String → Except BErr RegistryKey
  | 0, _, _, _ => .error .recursionLimit
  | f + 1, base, cur, nameOpt =>
    let nm := nameOpt.getD cur.name
    let cur1 := setExplicitTrue cur
    match openSub base nm with
    | none => .error .os
    | some elem =>
      match bssChildrenGo (bss f) elem (elem.subkeys.map XKey.name) cur1 with
      | .error e => .error e
      | .ok cur2 => addValuesLoop elem.values cur2

/-- The middle-key walk of `_build_key_structure` followed by the leaf
step: descend through the middle segments creating missing keys, then
`get_sub_key` the leaf and mirror the store subtree (`subElem` is the
handle opened on the middle path) into it. -/
def chainLeaf (fuel : Nat) (subElem : XKey) (leafStr : String) :
    RegistryKey → List String → Except BErr RegistryKey
  | node, [] =>
    let p := getSubKeyCreate node leafStr
    match bss fuel subElem p.2 none with
    | .error e => .error e
    | .ok leafNode => .ok (setChild p.1 (pyLower leafStr) leafNode)
  | node, m :: ms =>
    let p := getSubKeyCreate node m
    match chainLeaf fuel subElem leafStr p.2 ms with
    | .error e => .error e
    | .ok mid => .ok (setChild p.1 (pyLower m) mid)

/-- `Model._build_key_structure(computer, key_path)`: split the path,
expand a hive acronym on the first segment (dict lookup), resolve the
hive constant (`RgEdtException` if unknown), connect (`OSError` if not
a hive), probe the full remaining chain (missing: skip or fail per the
`ignore_missing_keys` policy), then create the hive node, walk the
middle chain, and mirror the subtree under the leaf.  The corner case
of a hive-only path mirrors directly from the hive root. -/
def bks (fuel : Nat) (store : Store) (ignoreMissing : Bool)
    (computer : RegistryKey) (keyPath : String) : Except BErr RegistryKey :=
  match mySplit keyPath with
  | [] => .error .rgedt
  | rootStr0 :: rest =>
    let rootStr := (rootKeyShort.lookup rootStr0).getD rootStr0
    match rootKeyNameToValue rootStr with
    | .error e => .error e
    | .ok c =>
      match connectRegistry store c with
      | .error e => .error e
      | .ok rootElem =>
        match openSub rootElem (myJoin rest) with
        | none => if ignoreMissing then .ok computer else .error .os
        | some _ =>
          let p := getSubKeyCreate computer rootStr
          match rest.getLast? with
          | none =>
            match bss fuel rootElem p.2 (some "") with
            | .error e => .error e
            | .ok rootNode => .ok (setChild p.1 (pyLower rootStr) rootNode)
          | some leafStr =>
            match openSub rootElem (myJoin rest.dropLast) with
            | none => .error .os
            | some subElem =>
              match chainLeaf fuel subElem leafStr p.2 rest.dropLast with
              | .error e => .error e
              | .ok rootNode => .ok (setChild p.1 (pyLower rootStr) rootNode)

/-- The loop of `get_registry_tree` over the reduced paths; the first
raised exception aborts the whole build (it is re-raised wrapped in
`RuntimeError`). -/
def buildPaths (fuel : Nat) (store : Store) (ignoreMissing : Bool) :
    RegistryKey → List String → Except BErr RegistryKey
  | t, [] => .ok t
  | t, p :: ps =>
    match bks fuel store ignoreMissing t p with
    | .error e => .error e
    | .ok t' => buildPaths fuel store ignoreMissing t' ps

/-- `Model.get_registry_tree(key_paths)`: reduce the paths, then build
each reduced path into the dummy `Computer` root. -/
def getRegistryTree (fuel : Nat) (store : Store) (ignoreMissing : Bool)
    (keyPaths : List String) : Except BErr RegistryKey :=
  buildPaths fuel store ignoreMissing computerRoot (removeContainedPaths keyPaths)

/-- `Model._DEFAULT_VALUES` (the source carries a `TODO: Add more`). -/
def defaultValues : List (String × PyVal) :=
  [("REG_SZ", .str ""), ("REG_DWORD", .int 0)]

/-- `Model.get_default_value(data_type)`: table lookup, raising
`RgEdtException` for a type not in the table. -/
def getDefaultValue (dataType : String) : Except BErr PyVal :=
  match defaultValues.lookup dataType with
  | some v => .ok v
  | none => .error .rgedt

/-- Classification of the opening phase of `_build_key_structure` for
one path: `fatal` (hive resolution or connection fails — never policy
gated), `missing` (the existence probe fails — policy gated), or `found`
(the probe succeeds). -/
inductive ProbeRes where
  | fatal
  | missing
  | found
deriving DecidableEq, Repr

/-- The probe phase of `_build_key_structure`, by itself. -/
def probeClass (store : Store) (keyPath : String) : ProbeRes :=
  match mySplit keyPath with
  | [] => .fatal
  | rootStr0 :: rest =>
    let rootStr := (rootKeyShort.lookup rootStr0).getD rootStr0
    match rootKeyNameToValue rootStr with
    | .error _ => .fatal
    | .ok c =>
      match connectRegistry store c with
      | .error _ => .fatal
      | .ok rootElem =>
        match openSub rootElem (myJoin rest) with
        | none => .missing
        | some _ => .found

/-- Shorthand for a value node of the sample stores. -/
def xv (n d t : String) : XVal :=
  ⟨n, d, t⟩

/-- A sample store shaped like the repository's test fixture. -/
def sampleStore : Store :=
  [XKey.mk "HKEY_CLASSES_ROOT"
     [XKey.mk ".386"
        [XKey.mk "PersistentHandler" [] [xv "" "{guid}" "REG_SZ"]]
        [xv "" "vxdfile" "REG_SZ", xv "PerceivedType" "system" "REG_SZ"]]
     [],
   XKey.mk "HKEY_CURRENT_CONFIG"
     [XKey.mk "Software"
        [XKey.mk "Fonts" [] [xv "LogPixels" "96" "REG_DWORD_LITTLE_ENDIAN"]]
        []]
     []]


/-- A sample store with an `HKEY_LOCAL_MACHINE` hive. -/
def storeHKLM : Store :=
  [XKey.mk "HKEY_LOCAL_MACHINE"
     [XKey.mk "SOFTWARE"
        [XKey.mk "RgEdt" [] [xv "version" "1" "REG_DWORD"]]
        []]
     []]

/-- C1: the path reducer evaluated on
`["HKCR\.386\PersistentHandler", "HKCR\.386", "HKLM\SOFTWARE"]`.  The
claim (and the spec scenario) expect
`{"HKEY_CLASSES_ROOT\.386", "HKEY_LOCAL_MACHINE\SOFTWARE"}`; the code
instead deletes the `HKLM` acronym (the regex-substitution callback
reads group 1, which is only bound for `HKCR`) and returns
`{"HKEY_CLASSES_ROOT\.386", "\SOFTWARE"}`. -/
theorem c1ReduceEval :
    removeContainedPaths ["HKCR\\.386\\PersistentHandler", "HKCR\\.386", "HKLM\\SOFTWARE"]
        = ["HKEY_CLASSES_ROOT\\.386", "\\SOFTWARE"]
    ∧ "HKEY_LOCAL_MACHINE\\SOFTWARE"
        ∉ removeContainedPaths ["HKCR\\.386\\PersistentHandler", "HKCR\\.386", "HKLM\\SOFTWARE"] := by
  decide

/-- C3: building from the abbreviated path `HKLM\SOFTWARE` fails (the
reducer turns it into `\SOFTWARE`, whose empty hive segment resolves to
no registry root), while the fully-spelled path succeeds — so
abbreviated and full paths are not interchangeable in
`get_registry_tree`, contrary to the claim; of the five acronyms only
`HKCR` survives the reducer's broken expansion. -/
theorem c3AbbrevBuildFails :
    (getRegistryTree 20 storeHKLM false ["HKLM\\SOFTWARE"]).isOk = false
    ∧ (getRegistryTree 20 storeHKLM false ["HKEY_LOCAL_MACHINE\\SOFTWARE"]).isOk = true
    ∧ removeContainedPaths ["HKLM\\SOFTWARE"] = ["\\SOFTWARE"]
    ∧ exceptRegKeyEq (getRegistryTree 20 sampleStore false ["HKCR\\.386"])
        (getRegistryTree 20 sampleStore false ["HKEY_CLASSES_ROOT\\.386"]) = some true := by
  decide

instance {ε α : Type} [DecidableEq ε] [DecidableEq α] : DecidableEq (Except ε α) := fun x y =>
  match x, y with
  | .ok a, .ok b =>
    match decEq a b with
    | isTrue h => isTrue (h ▸ rfl)
    | isFalse h => isFalse (fun hc => h (Except.ok.inj hc))
  | .error a, .error b =>
    match decEq a b with
    | isTrue h => isTrue (h ▸ rfl)
    | isFalse h => isFalse (fun hc => h (Except.error.inj hc))
  | .ok _, .error _ => isFalse (fun hc => Except.noConfusion hc)
  | .error _, .ok _ => isFalse (fun hc => Except.noConfusion hc)

/-- C9 counterexample: `get_default_value("REG_EXPAND_SZ")` raises
`RgEdtException` instead of returning the empty string — the
`_DEFAULT_VALUES` table only holds `REG_SZ` and `REG_DWORD`. -/
theorem c9DefaultValueCex :
    getDefaultValue "REG_EXPAND_SZ" = .error .rgedt
    ∧ getDefaultValue "REG_EXPAND_SZ" ≠ .ok (.str "") := by
  decide

/-- C9 amended: `get_default_value` returns the empty string for
`REG_SZ` and `0` for `REG_DWORD`, and raises `RgEdtException` for every
other type name (including `REG_EXPAND_SZ`, `REG_MULTI_SZ`, the
`REG_DWORD` endianness variants and `REG_QWORD`). -/
theorem c9DefaultValueAmended :
    getDefaultValue "REG_SZ" = .ok (.str "")
    ∧ getDefaultValue "REG_DWORD" = .ok (.int 0)
    ∧ ∀ s : String, s ≠ "REG_SZ" → s ≠ "REG_DWORD" → getDefaultValue s = .error .rgedt := by
  refine ⟨by decide, by decide, ?_⟩
  intro s h1 h2
  have h1' : (s == "REG_SZ") = false := beq_eq_false_iff_ne.mpr h1
  have h2' : (s == "REG_DWORD") = false := beq_eq_false_iff_ne.mpr h2
  simp [getDefaultValue, defaultValues, List.lookup, h1', h2']

/-- Witness for the amended C9 at `REG_MULTI_SZ`. -/
theorem c9DefaultValueAmendedWitness :
    getDefaultValue "REG_MULTI_SZ" = .error .rgedt :=
  c9DefaultValueAmended.2.2 "REG_MULTI_SZ" (by decide) (by decide)

/-- A list is a Boolean prefix of itself followed by anything. -/
theorem isPrefixOfAppendSelf : ∀ (l t : List Char), l.isPrefixOf (l ++ t) = true
  | [], _ => by simp [List.isPrefixOf]
  | c :: rest, t => by simp [List.isPrefixOf, isPrefixOfAppendSelf rest t]

/-- `str.replace` leaves a string without an occurrence of the pattern
unchanged. -/
theorem replCoreNoOcc : ∀ (pat repl : List Char) (f : Nat) (l : List Char),
    hasSubstr pat l = false → replCore pat repl f l = l
  | _, _, f, [], _ => by cases f <;> rfl
  | _, _, 0, _ :: _, _ => rfl
  | pat, repl, f + 1, c :: rest, h => by
    have h' : pat.isPrefixOf (c :: rest) = false ∧ hasSubstr pat rest = false := by
      simpa [hasSubstr] using h
    simp [replCore, h'.1, replCoreNoOcc pat repl f rest h'.2]

/-- `str.replace` consumes a pattern occurrence at the head. -/
theorem replCoreHead (pat repl u : List Char) (f : Nat) (hne : pat ≠ []) :
    replCore pat repl (f + 1) (pat ++ u) = repl ++ replCore pat repl f u := by
  match pat, hne with
  | p :: pt, _ =>
    show replCore (p :: pt) repl (f + 1) (p :: (pt ++ u)) = _
    have hp : (p :: pt).isPrefixOf (p :: (pt ++ u)) = true := isPrefixOfAppendSelf (p :: pt) u
    simp only [replCore, hp, ne_eq, reduceCtorEq, not_false_eq_true, and_self, if_true,
      List.length_cons, List.drop_succ_cons]
    rw [List.drop_left]

/-- C7 counterexample: for the input
`"Computer\A\Computer\B"` the normalizer returns `"A\B"` — the second
occurrence of `"Computer\"` is removed too (`str.replace` replaces every
occurrence), not only the leading prefix as the claim states. -/
theorem c7NormalizeCex :
    normalizeKeyString "Computer\\A\\Computer\\B" = "A\\B"
    ∧ "A\\B" ≠ "A\\Computer\\B" := by
  decide

/-- C7 amended: a path not starting with `"Computer\"` is returned
unchanged; a path starting with `"Computer\"` has every occurrence of
`"Computer\"` removed (in particular, when the remainder contains no
further occurrence, exactly the leading prefix is stripped). -/
theorem c7NormalizeAmended :
    (∀ s : String, pyStartsWith s "Computer\\" = false → normalizeKeyString s = s)
    ∧ (∀ t : String, hasSubstr "Computer\\".data t.data = false →
        normalizeKeyString ("Computer\\" ++ t) = t) := by
  constructor
  · intro s h
    simp [normalizeKeyString, h]
  · intro t h
    have hpre : pyStartsWith ("Computer\\" ++ t) "Computer\\" = true := by
      simp only [pyStartsWith, String.data_append]
      exact isPrefixOfAppendSelf _ _
    unfold normalizeKeyString
    rw [hpre, if_pos rfl]
    unfold pyReplace
    have hd : ("Computer\\" ++ t).data = "Computer\\".data ++ t.data := String.data_append _ _
    rw [hd]
    have h9 : "Computer\\".data.length = 9 := rfl
    have hlen : ("Computer\\".data ++ t.data).length = (8 + t.data.length) + 1 := by
      rw [List.length_append, h9]
      omega
    rw [hlen, replCoreHead _ _ _ _ (by decide), replCoreNoOcc _ _ _ _ h]
    rfl

/-- Witness for the amended C7: an untouched path and a stripped path. -/
theorem c7NormalizeAmendedWitness :
    normalizeKeyString "HKLM\\X" = "HKLM\\X"
    ∧ normalizeKeyString ("Computer\\" ++ "HKCU\\Y") = "HKCU\\Y" :=
  ⟨c7NormalizeAmended.1 "HKLM\\X" (by decide),
   c7NormalizeAmended.2 "HKCU\\Y" (by decide)⟩

theorem findStripL : ∀ (l : RKList) (k : String),
    (stripMetaL l).find? k = (l.find? k).map stripMeta
  | .nil, _ => rfl
  | .cons key node rest, k => by
    by_cases h : key = k
    · simp [stripMetaL, RKList.find?, h]
    · simp [stripMetaL, RKList.find?, h, findStripL rest k]

theorem lengthStripL : ∀ l : RKList, (stripMetaL l).length = l.length
  | .nil => rfl
  | .cons _ _ rest => by simp [stripMetaL, RKList.length, lengthStripL rest]

mutual
theorem stripMetaEq : ∀ a b : RegistryKey, regKeyEq (stripMeta a) (stripMeta b) = regKeyEq a b
  | .mk _ sk v _, .mk _ sk' v' _ => by
    simp [stripMeta, regKeyEq, lengthStripL, stripSubEq sk sk']
theorem stripSubEq : ∀ l l' : RKList, rkSubOf (stripMetaL l) (stripMetaL l') = rkSubOf l l'
  | .nil, _ => rfl
  | .cons key node rest, l' => by
    simp only [stripMetaL, rkSubOf, findStripL l' key, stripSubEq rest l']
    cases h : l'.find? key with
    | none => rfl
    | some n2 => simp [stripMetaEq node n2]
end

/-- C10: `RegistryKey.__eq__` reads only the `_sub_keys` and `_values`
dicts.  First part: the compared objects' own `name` and `_is_explicit`
fields are irrelevant.  Second part: erasing every `name` and every
`_is_explicit` flag at every depth on both sides leaves the comparison
unchanged, so tree equality never distinguishes explicit from implicit
keys nor display names. -/
theorem c10EqIgnoresMeta :
    (∀ (n1 n1' n2 n2' : String) (e1 e1' e2 e2' : Bool) (sk1 sk2 : RKList)
        (v1 v2 : List (String × RegVal)),
      regKeyEq (.mk n1 sk1 v1 e1) (.mk n2 sk2 v2 e2)
        = regKeyEq (.mk n1' sk1 v1 e1') (.mk n2' sk2 v2 e2'))
    ∧ ∀ a b : RegistryKey, regKeyEq (stripMeta a) (stripMeta b) = regKeyEq a b :=
  ⟨fun _ _ _ _ _ _ _ _ _ _ _ _ => rfl, stripMetaEq⟩

theorem memInsertLe : ∀ (x a : String) (l : List String), a ∈ insertLe x l ↔ a = x ∨ a ∈ l
  | x, a, [] => by simp [insertLe]
  | x, a, y :: ys => by
    simp only [insertLe]
    cases h : pyLe x y with
    | true =>
      rw [if_pos rfl]
      simp only [List.mem_cons]
    | false =>
      rw [if_neg (by simp)]
      simp only [List.mem_cons, memInsertLe x a ys]
      tauto

theorem memPySorted : ∀ (a : String) (l : List String), a ∈ pySorted l ↔ a ∈ l
  | _, [] => Iff.rfl
  | a, x :: xs => by
    simp [pySorted, memInsertLe, memPySorted a xs]

theorem memDropWhileKeep : ∀ (p : String → Bool) (l : List String) (a : String),
    a ∈ l → p a = false → a ∈ l.dropWhile p
  | p, [], a, h, _ => absurd h (by simp)
  | p, x :: xs, a, h, hp => by
    rw [List.dropWhile_cons]
    cases hx : p x with
    | true =>
      rw [if_pos rfl]
      rcases List.mem_cons.mp h with rfl | hmem
      · rw [hp] at hx
        exact absurd hx (by decide)
      · exact memDropWhileKeep p xs a hmem hp
    | false =>
      rw [if_neg (by simp)]
      exact h

theorem reduceLoopKeeps : ∀ (fuel : Nat) (l : List String) (p : String),
    l.length ≤ fuel → p ∈ l →
    (∀ q ∈ l, pyStartsWith p q = true → q = p) → p ∈ reduceLoop fuel l
  | 0, l, p, hle, hmem, _ => by
    have : l = [] := List.eq_nil_of_length_eq_zero (Nat.le_zero.mp hle)
    subst this
    exact absurd hmem (by simp)
  | _ + 1, [], p, _, hmem, _ => absurd hmem (by simp)
  | f + 1, a :: rest, p, hle, hmem, hmin => by
    simp only [reduceLoop]
    by_cases hpa : p = a
    · simp [hpa]
    · have hpmem : p ∈ rest := (List.mem_cons.mp hmem).resolve_left hpa
      have hppred : pyStartsWith p a = false := by
        cases hEq : pyStartsWith p a with
        | false => rfl
        | true => exact absurd (hmin a (List.mem_cons_self a rest) hEq).symm hpa
      have hdrop : p ∈ rest.dropWhile (fun q => pyStartsWith q a) := by
        have : pyStartsWith p a = false := hppred
        exact memDropWhileKeep _ rest p hpmem this
      have hlen : (rest.dropWhile (fun q => pyStartsWith q a)).length ≤ f := by
        have h1 : (rest.dropWhile (fun q => pyStartsWith q a)).length ≤ rest.length :=
          (List.dropWhile_sublist _).length_le
        have h2 : rest.length ≤ f := by
          simpa using Nat.le_of_succ_le_succ hle
        omega
      have hmin' : ∀ q ∈ rest.dropWhile (fun q => pyStartsWith q a),
          pyStartsWith p q = true → q = p := fun q hq =>
        hmin q (List.mem_cons_of_mem _ ((List.dropWhile_sublist _).subset hq))
      exact List.mem_cons_of_mem _ (reduceLoopKeeps f _ p hlen hdrop hmin')

/-- C6 counterexample: with input
`["HKEY_CLASSES_ROOT\SOFT", "HKEY_CLASSES_ROOT\SOFTWARE"]` the second
path is not a path-segment descendant of the first (nor identical), yet
the reducer discards it — the containment test is a plain string-prefix
test (`str.startswith`), not a segment-boundary test. -/
theorem c6ReduceCex :
    removeContainedPaths ["HKEY_CLASSES_ROOT\\SOFT", "HKEY_CLASSES_ROOT\\SOFTWARE"]
        = ["HKEY_CLASSES_ROOT\\SOFT"]
    ∧ expandedPath "HKEY_CLASSES_ROOT\\SOFTWARE" = "HKEY_CLASSES_ROOT\\SOFTWARE"
    ∧ ¬ (mySplit "HKEY_CLASSES_ROOT\\SOFT" <+: mySplit "HKEY_CLASSES_ROOT\\SOFTWARE")
    ∧ "HKEY_CLASSES_ROOT\\SOFTWARE" ≠ "HKEY_CLASSES_ROOT\\SOFT"
    ∧ "HKEY_CLASSES_ROOT\\SOFTWARE"
        ∉ removeContainedPaths ["HKEY_CLASSES_ROOT\\SOFT", "HKEY_CLASSES_ROOT\\SOFTWARE"] := by
  decide

/-- C6 amended: the reducer discards a path only when its normalized
form has another normalized path of the list as a plain string prefix
(`str.startswith`); a normalized path that is not string-prefixed by any
other (distinct) normalized path of the list always appears in the
output. -/
theorem c6ReduceAmended (paths : List String) (p : String)
    (hmem : p ∈ paths.map expandedPath)
    (hmin : ∀ q ∈ paths.map expandedPath, pyStartsWith p q = true → q = p) :
    p ∈ removeContainedPaths paths := by
  unfold removeContainedPaths
  refine reduceLoopKeeps _ _ _ (Nat.le_refl _) ((memPySorted _ _).mpr hmem) ?_
  intro q hq
  exact hmin q ((memPySorted _ _).mp hq)

/-- Witness for the amended C6. -/
theorem c6ReduceAmendedWitness :
    "HKEY_CLASSES_ROOT\\.386" ∈ removeContainedPaths ["HKCR\\.386", "HKEY_USERS\\A"] :=
  c6ReduceAmended ["HKCR\\.386", "HKEY_USERS\\A"] "HKEY_CLASSES_ROOT\\.386"
    (by decide) (by decide)

theorem findSetSame : ∀ (l : RKList) (k : String) (v : RegistryKey),
    (l.set k v).find? k = some v
  | .nil, k, v => by simp [RKList.set, RKList.find?]
  | .cons key node rest, k, v => by
    by_cases h : key = k
    · simp [RKList.set, RKList.find?, h]
    · simp [RKList.set, RKList.find?, h, findSetSame rest k v]

theorem findSetOther : ∀ (l : RKList) (k k' : String) (v : RegistryKey), k' ≠ k →
    (l.set k v).find? k' = l.find? k'
  | .nil, k, k', v, h => by simp [RKList.set, RKList.find?, Ne.symm h]
  | .cons key node rest, k, k', v, h => by
    by_cases hk : key = k
    · subst hk
      simp [RKList.set, RKList.find?, Ne.symm h]
    · simp only [RKList.set, if_neg hk, RKList.find?]
      by_cases hk' : key = k'
      · simp [hk']
      · simp [hk', findSetOther rest k k' v h]

theorem memKeysSet : ∀ (l : RKList) (a k : String) (v : RegistryKey),
    a ∈ (l.set k v).keys ↔ a ∈ l.keys ∨ a = k
  | .nil, a, k, v => by simp [RKList.set, RKList.keys]
  | .cons key node rest, a, k, v => by
    by_cases h : key = k
    · subst h
      simp only [RKList.set, if_pos rfl, RKList.keys, List.mem_cons]
      tauto
    · simp only [RKList.set, if_neg h, RKList.keys, List.mem_cons, memKeysSet rest a k v]
      tauto

theorem findNoneNotMem : ∀ (l : RKList) (k : String),
    l.find? k = none → k ∉ l.keys
  | .nil, k, _ => by simp [RKList.keys]
  | .cons key node rest, k, h => by
    simp only [RKList.find?] at h
    by_cases hk : key = k
    · simp [hk] at h
    · simp only [RKList.keys, List.mem_cons]
      push_neg
      exact ⟨fun hc => hk hc.symm, findNoneNotMem rest k (by simpa [hk] using h)⟩

theorem nodupKeysSetSame : ∀ (l : RKList) (k : String) (v : RegistryKey),
    k ∈ l.keys → (l.set k v).keys = l.keys
  | .nil, k, v, h => by simp [RKList.keys] at h
  | .cons key node rest, k, v, h => by
    by_cases hk : key = k
    · simp [RKList.set, hk, RKList.keys]
    · have : k ∈ rest.keys := by
        rcases List.mem_cons.mp (by simpa [RKList.keys] using h) with h1 | h1
        · exact absurd h1.symm hk
        · exact h1
      simp [RKList.set, hk, RKList.keys, nodupKeysSetSame rest k v this]

theorem nodupKeysSetNew : ∀ (l : RKList) (k : String) (v : RegistryKey),
    k ∉ l.keys → (l.set k v).keys = l.keys ++ [k]
  | .nil, k, v, _ => by simp [RKList.set, RKList.keys]
  | .cons key node rest, k, v, h => by
    simp only [RKList.keys, List.mem_cons] at h
    push_neg at h
    simp [RKList.set, Ne.symm h.1, RKList.keys, nodupKeysSetNew rest k v h.2]

theorem myNodupAppendOne : ∀ (ks : List String) (k : String),
    myNodup ks = true → k ∉ ks → myNodup (ks ++ [k]) = true
  | [], k, _, _ => by simp [myNodup]
  | x :: xs, k, hnd, hmem => by
    simp only [myNodup, Bool.and_eq_true, decide_eq_true_eq] at hnd
    simp only [List.mem_cons] at hmem
    push_neg at hmem
    simp only [List.cons_append, myNodup, Bool.and_eq_true, decide_eq_true_eq]
    refine ⟨fun hc => ?_, myNodupAppendOne xs k hnd.2 hmem.2⟩
    rcases List.mem_append.mp hc with h1 | h1
    · exact hnd.1 h1
    · exact hmem.1 (List.mem_singleton.mp h1).symm

theorem myNodupSet (l : RKList) (k : String) (v : RegistryKey)
    (h : myNodup l.keys = true) : myNodup ((l.set k v).keys) = true := by
  by_cases hk : k ∈ l.keys
  · rw [nodupKeysSetSame l k v hk]
    exact h
  · rw [nodupKeysSetNew l k v hk]
    exact myNodupAppendOne _ _ h hk

theorem wfLFind : ∀ (l : RKList) (k : String) (c : RegistryKey),
    treeWFL l = true → l.find? k = some c → treeWF c = true
  | .nil, k, c, _, h => by simp [RKList.find?] at h
  | .cons key node rest, k, c, hwf, h => by
    simp only [treeWFL, Bool.and_eq_true] at hwf
    simp only [RKList.find?] at h
    by_cases hk : key = k
    · rw [if_pos hk] at h
      injection h with h2
      exact h2 ▸ hwf.1
    · exact wfLFind rest k c hwf.2 (by simpa [hk] using h)

theorem wfLSet : ∀ (l : RKList) (k : String) (v : RegistryKey),
    treeWFL l = true → treeWF v = true → treeWFL (l.set k v) = true
  | .nil, k, v, _, hv => by simp [RKList.set, treeWFL, hv]
  | .cons key node rest, k, v, hwf, hv => by
    simp only [treeWFL, Bool.and_eq_true] at hwf
    by_cases hk : key = k
    · simp [RKList.set, hk, treeWFL, hv, hwf.2]
    · simp [RKList.set, hk, treeWFL, hwf.1, wfLSet rest k v hwf.2 hv]

theorem treeWFFields (n : String) (sk : RKList) (v : List (String × RegVal)) (e : Bool) :
    treeWF (.mk n sk v e)
      = (myNodup sk.keys && myNodup (v.map Prod.fst) && treeWFL sk) := rfl

theorem freshKeyWF (n : String) : treeWF (freshKey n) = true := rfl

theorem wfGetSubKeyCreate (k : RegistryKey) (n : String) (h : treeWF k = true) :
    treeWF (getSubKeyCreate k n).1 = true ∧ treeWF (getSubKeyCreate k n).2 = true := by
  match k with
  | .mk nm sk v e =>
    simp only [treeWFFields, Bool.and_eq_true] at h
    unfold getSubKeyCreate
    cases hf : RKList.find? (RegistryKey.subKeys (.mk nm sk v e)) (pyLower n) with
    | some c =>
      exact ⟨by simp [treeWFFields, h.1.1, h.1.2, h.2], wfLFind _ _ _ h.2 hf⟩
    | none =>
      refine ⟨?_, freshKeyWF n⟩
      simp only [treeWFFields, Bool.and_eq_true]
      exact ⟨⟨myNodupSet _ _ _ h.1.1, h.1.2⟩, wfLSet _ _ _ h.2 (freshKeyWF n)⟩

theorem wfSetChild (k : RegistryKey) (keyLow : String) (c : RegistryKey)
    (h : treeWF k = true) (hc : treeWF c = true) : treeWF (setChild k keyLow c) = true := by
  match k with
  | .mk nm sk v e =>
    simp only [treeWFFields, Bool.and_eq_true] at h
    simp only [setChild, treeWFFields, Bool.and_eq_true]
    exact ⟨⟨myNodupSet _ _ _ h.1.1, h.1.2⟩, wfLSet _ _ _ h.2 hc⟩

theorem vLookupNoneNotMem : ∀ (l : List (String × RegVal)) (k : String),
    vLookup l k = none → k ∉ l.map Prod.fst
  | [], k, _ => by simp
  | (key, v) :: rest, k, h => by
    simp only [vLookup] at h
    by_cases hk : key = k
    · simp [hk] at h
    · simp only [List.map_cons, List.mem_cons]
      push_neg
      exact ⟨fun hc => hk hc.symm, vLookupNoneNotMem rest k (by simpa [hk] using h)⟩

theorem wfAddValue (k : RegistryKey) (v : RegVal) (k' : RegistryKey)
    (h : treeWF k = true) (hadd : addValue k v = .ok k') : treeWF k' = true := by
  match k with
  | .mk nm sk vs e =>
    simp only [treeWFFields, Bool.and_eq_true] at h
    unfold addValue at hadd
    cases hf : vLookup (RegistryKey.values (.mk nm sk vs e)) (pyLower v.name) with
    | some _ => simp [hf] at hadd
    | none =>
      simp only [hf] at hadd
      cases hadd
      simp only [treeWFFields, Bool.and_eq_true]
      refine ⟨⟨h.1.1, ?_⟩, h.2⟩
      simp only [List.map_append, List.map_cons, List.map_nil]
      exact myNodupAppendOne _ _ h.1.2 (vLookupNoneNotMem _ _ hf)

theorem wfAddValuesLoop : ∀ (vs : List XVal) (k r : RegistryKey),
    addValuesLoop vs k = .ok r → treeWF k = true → treeWF r = true
  | [], k, r, h, hwf => by
    simp only [addValuesLoop] at h
    cases h
    exact hwf
  | v :: rest, k, r, h, hwf => by
    simp only [addValuesLoop] at h
    cases he : enumValue v with
    | error e => simp [he] at h
    | ok tr =>
      simp only [he] at h
      cases hm : mkRegistryValue tr.1 tr.2.1 tr.2.2 with
      | error e => simp [hm] at h
      | ok rv =>
        simp only [hm] at h
        cases ha : addValue k rv with
        | error e => simp [ha] at h
        | ok k' =>
          simp only [ha] at h
          exact wfAddValuesLoop rest k' r h (wfAddValue k rv k' hwf ha)

theorem setExplicitTrueWF (k : RegistryKey) (h : treeWF k = true) :
    treeWF (setExplicitTrue k) = true := by
  match k with
  | .mk nm sk v e => exact h

/-- Well-formedness preservation for the child loop, parametrized by the
preservation property of the recursive call. -/
theorem wfBssGo (rec : XKey → RegistryKey → Option String → Except BErr RegistryKey)
    (hrec : ∀ elem cur nameOpt r, rec elem cur nameOpt = .ok r → treeWF cur = true → treeWF r = true) :
    ∀ (elem : XKey) (names : List String) (acc r : RegistryKey),
    bssChildrenGo rec elem names acc = .ok r → treeWF acc = true → treeWF r = true
  | elem, [], acc, r, h, hwf => by
    simp only [bssChildrenGo] at h
    cases h
    exact hwf
  | elem, n :: ns, acc, r, h, hwf => by
    simp only [bssChildrenGo] at h
    cases hr : rec elem (getSubKeyCreate acc n).2 none with
    | error e => simp [hr] at h
    | ok node =>
      simp only [hr] at h
      have hacc := wfGetSubKeyCreate acc n hwf
      have hnode := hrec _ _ _ _ hr hacc.2
      exact wfBssGo rec hrec elem ns _ r h (wfSetChild _ _ _ hacc.1 hnode)

theorem wfBss : ∀ (f : Nat) (base : XKey) (cur : RegistryKey) (nameOpt : Option String)
    (r : RegistryKey), bss f base cur nameOpt = .ok r → treeWF cur = true → treeWF r = true
  | 0, _, _, _, _, h, _ => by simp [bss] at h
  | f + 1, base, cur, nameOpt, r, h, hwf => by
    simp only [bss] at h
    cases ho : openSub base (nameOpt.getD cur.name) with
    | none => simp [ho] at h
    | some elem =>
      simp only [ho] at h
      cases hg : bssChildrenGo (bss f) elem (elem.subkeys.map XKey.name) (setExplicitTrue cur) with
      | error e => simp [hg] at h
      | ok cur2 =>
        simp only [hg] at h
        have h2 : treeWF cur2 = true :=
          wfBssGo (bss f) (fun e c no r h1 h2 => wfBss f e c no r h1 h2) elem _ _ _ hg
            (setExplicitTrueWF cur hwf)
        exact wfAddValuesLoop _ _ _ h h2

theorem wfChainLeaf : ∀ (fuel : Nat) (subElem : XKey) (leafStr : String)
    (node : RegistryKey) (middles : List String) (r : RegistryKey),
    chainLeaf fuel subElem leafStr node middles = .ok r → treeWF node = true → treeWF r = true
  | fuel, subElem, leafStr, node, [], r, h, hwf => by
    simp only [chainLeaf] at h
    cases hb : bss fuel subElem (getSubKeyCreate node leafStr).2 none with
    | error e => simp [hb] at h
    | ok leafNode =>
      simp only [hb] at h
      cases h
      have hn := wfGetSubKeyCreate node leafStr hwf
      exact wfSetChild _ _ _ hn.1 (wfBss _ _ _ _ _ hb hn.2)
  | fuel, subElem, leafStr, node, m :: ms, r, h, hwf => by
    simp only [chainLeaf] at h
    cases hc : chainLeaf fuel subElem leafStr (getSubKeyCreate node m).2 ms with
    | error e => simp [hc] at h
    | ok mid =>
      simp only [hc] at h
      cases h
      have hn := wfGetSubKeyCreate node m hwf
      exact wfSetChild _ _ _ hn.1 (wfChainLeaf fuel subElem leafStr _ ms mid hc hn.2)

theorem wfBks (fuel : Nat) (store : Store) (ig : Bool) (computer : RegistryKey)
    (keyPath : String) (r : RegistryKey) (h : bks fuel store ig computer keyPath = .ok r)
    (hwf : treeWF computer = true) : treeWF r = true := by
  unfold bks at h
  cases hs : mySplit keyPath with
  | nil => simp [hs] at h
  | cons rootStr0 rest =>
    simp only [hs] at h
    cases hrv : rootKeyNameToValue ((rootKeyShort.lookup rootStr0).getD rootStr0) with
    | error e => simp [hrv] at h
    | ok c =>
      simp only [hrv] at h
      cases hcn : connectRegistry store c with
      | error e => simp [hcn] at h
      | ok rootElem =>
        simp only [hcn] at h
        cases hop : openSub rootElem (myJoin rest) with
        | none =>
          simp only [hop] at h
          cases ig with
          | true =>
            simp only [if_pos rfl] at h
            cases h
            exact hwf
          | false => simp at h
        | some probed =>
          simp only [hop] at h
          have hp := wfGetSubKeyCreate computer ((rootKeyShort.lookup rootStr0).getD rootStr0) hwf
          cases hl : rest.getLast? with
          | none =>
            simp only [hl] at h
            cases hb : bss fuel rootElem (getSubKeyCreate computer ((rootKeyShort.lookup rootStr0).getD rootStr0)).2 (some "") with
            | error e => simp [hb] at h
            | ok rootNode =>
              simp only [hb] at h
              cases h
              exact wfSetChild _ _ _ hp.1 (wfBss _ _ _ _ _ hb hp.2)
          | some leafStr =>
            simp only [hl] at h
            cases hop2 : openSub rootElem (myJoin rest.dropLast) with
            | none => simp [hop2] at h
            | some subElem =>
              simp only [hop2] at h
              cases hc : chainLeaf fuel subElem leafStr (getSubKeyCreate computer ((rootKeyShort.lookup rootStr0).getD rootStr0)).2 rest.dropLast with
              | error e => simp [hc] at h
              | ok rootNode =>
                simp only [hc] at h
                cases h
                exact wfSetChild _ _ _ hp.1 (wfChainLeaf _ _ _ _ _ _ hc hp.2)

theorem wfBuildPaths : ∀ (fuel : Nat) (store : Store) (ig : Bool) (t : RegistryKey)
    (ps : List String) (r : RegistryKey),
    buildPaths fuel store ig t ps = .ok r → treeWF t = true → treeWF r = true
  | fuel, store, ig, t, [], r, h, hwf => by
    simp only [buildPaths] at h
    cases h
    exact hwf
  | fuel, store, ig, t, p :: ps, r, h, hwf => by
    simp only [buildPaths] at h
    cases hb : bks fuel store ig t p with
    | error e => simp [hb] at h
    | ok t' =>
      simp only [hb] at h
      exact wfBuildPaths fuel store ig t' ps r h (wfBks fuel store ig t p t' hb hwf)

/-- C8: adding a child key whose lower-cased name collides with an
existing child, or a value whose lower-cased name collides with an
existing value, raises `RuntimeError` (no silent overwrite), and every
tree `get_registry_tree` returns is well-formed: every node has
pairwise-distinct lower-cased child dict keys and pairwise-distinct
lower-cased value dict keys. -/
theorem c8DuplicatesRejected :
    (∀ (k : RegistryKey) (c : RegistryKey),
      (k.subKeys.find? (pyLower c.name)).isSome = true → addSubKey k c = .error .runtime)
    ∧ (∀ (k : RegistryKey) (v : RegVal),
      (vLookup k.values (pyLower v.name)).isSome = true → addValue k v = .error .runtime)
    ∧ ∀ (fuel : Nat) (store : Store) (ig : Bool) (paths : List String) (t : RegistryKey),
      getRegistryTree fuel store ig paths = .ok t → treeWF t = true := by
  refine ⟨?_, ?_, ?_⟩
  · intro k c h
    unfold addSubKey
    cases hf : k.subKeys.find? (pyLower c.name) with
    | some _ => rfl
    | none => simp [hf] at h
  · intro k v h
    unfold addValue
    cases hf : vLookup k.values (pyLower v.name) with
    | some _ => rfl
    | none => simp [hf] at h
  · intro fuel store ig paths t h
    exact wfBuildPaths fuel store ig computerRoot (removeContainedPaths paths) t h rfl

/-- Witness for C8 at concrete duplicate insertions and a concrete
successful build. -/
theorem c8DuplicatesRejectedWitness :
    addSubKey (.mk "K" (.cons "sub" (freshKey "Sub") .nil) [] false) (freshKey "SUB")
        = .error .runtime
    ∧ addValue (.mk "K" .nil [("v", ⟨"v", .str "x", 14⟩)] false) ⟨"V", .str "y", 14⟩
        = .error .runtime
    ∧ treeWF (okTree (getRegistryTree 20 sampleStore false ["HKEY_CLASSES_ROOT\\.386"])) = true := by
  refine ⟨?_, ?_, ?_⟩
  · exact c8DuplicatesRejected.1 _ (freshKey "SUB") (by decide)
  · exact c8DuplicatesRejected.2.1 _ ⟨"V", .str "y", 14⟩ (by decide)
  · cases hres : getRegistryTree 20 sampleStore false ["HKEY_CLASSES_ROOT\\.386"] with
    | error e =>
      have hok : (getRegistryTree 20 sampleStore false ["HKEY_CLASSES_ROOT\\.386"]).isOk = true := by
        decide
      rw [hres] at hok
      simp [Except.isOk, Except.toBool] at hok
    | ok t =>
      simpa [okTree] using
        c8DuplicatesRejected.2.2 20 sampleStore false ["HKEY_CLASSES_ROOT\\.386"] t hres

/-- A store for the C5 scenario: the hive contains `SOFTWARE` but no
key named `SOFT`. -/
def storeC5 : Store :=
  [XKey.mk "HKEY_CLASSES_ROOT"
     [XKey.mk "SOFTWARE" [] [xv "marker" "here" "REG_SZ"]]
     []]

/-- C5 counterexample: with `ignore_missing_keys = True`, requesting the
missing path `HKEY_CLASSES_ROOT\SOFT` together with the existing path
`HKEY_CLASSES_ROOT\SOFTWARE` yields a tree different from the one built
had the missing path not been requested: path reduction runs before the
probe, and the missing `...\SOFT` string-covers `...\SOFTWARE`, which is
therefore dropped from the build.  Both builds succeed, yet the trees
are unequal (`__eq__`), refuting "the tree is exactly what it would be
had the path not been requested". -/
theorem c5SkipCex :
    probeClass storeC5 "HKEY_CLASSES_ROOT\\SOFT" = .missing
    ∧ removeContainedPaths ["HKEY_CLASSES_ROOT\\SOFT", "HKEY_CLASSES_ROOT\\SOFTWARE"]
        = ["HKEY_CLASSES_ROOT\\SOFT"]
    ∧ exceptRegKeyEq
        (getRegistryTree 20 storeC5 true ["HKEY_CLASSES_ROOT\\SOFT", "HKEY_CLASSES_ROOT\\SOFTWARE"])
        (getRegistryTree 20 storeC5 true ["HKEY_CLASSES_ROOT\\SOFTWARE"]) = some false := by
  decide

/-- When the existence probe reports the key missing,
`_build_key_structure` either skips the path leaving the tree untouched
(`ignore_missing_keys = True`) or re-raises the `OSError`. -/
theorem bksProbeMissing (fuel : Nat) (store : Store) (ig : Bool) (t : RegistryKey)
    (P : String) (hp : probeClass store P = .missing) :
    bks fuel store ig t P = if ig then .ok t else .error .os := by
  unfold probeClass at hp
  unfold bks
  cases hs : mySplit P with
  | nil => simp [hs] at hp
  | cons rootStr0 rest =>
    simp only [hs] at hp
    cases hrv : rootKeyNameToValue ((rootKeyShort.lookup rootStr0).getD rootStr0) with
    | error e => simp [hrv] at hp
    | ok c =>
      simp only [hrv] at hp
      cases hcn : connectRegistry store c with
      | error e => simp [hcn] at hp
      | ok rootElem =>
        simp only [hcn] at hp
        cases hop : openSub rootElem (myJoin rest) with
        | none => simp [hrv, hcn, hop]
        | some probed => simp [hop] at hp

/-- C5 amended: at the stage after path reduction, a reduced path whose
existence probe fails contributes nothing: with
`ignore_missing_keys = True` the build over `l1 ++ [P] ++ l2` equals the
build over `l1 ++ l2` (the remaining reduced paths are still processed),
and with `ignore_missing_keys = False` the same failure makes the whole
multi-path build fail.  (As stated over the requested paths the claim is
false, because reduction runs before the probe — see the
counterexample.) -/
theorem c5SkipAmended : ∀ (fuel : Nat) (store : Store) (t : RegistryKey)
    (l1 l2 : List String) (P : String), probeClass store P = .missing →
    buildPaths fuel store true t (l1 ++ P :: l2) = buildPaths fuel store true t (l1 ++ l2)
    ∧ (buildPaths fuel store false t (l1 ++ P :: l2)).isOk = false
  | fuel, store, t, [], l2, P, hp => by
    constructor
    · simp only [List.nil_append, buildPaths, bksProbeMissing fuel store true t P hp]
      simp
    · simp only [List.nil_append, buildPaths, bksProbeMissing fuel store false t P hp]
      simp [Except.isOk, Except.toBool]
  | fuel, store, t, p :: rest, l2, P, hp => by
    constructor
    · simp only [List.cons_append, buildPaths]
      cases hb : bks fuel store true t p with
      | error e => rfl
      | ok t' => exact (c5SkipAmended fuel store t' rest l2 P hp).1
    · simp only [List.cons_append, buildPaths]
      cases hb : bks fuel store false t p with
      | error e => rfl
      | ok t' => exact (c5SkipAmended fuel store t' rest l2 P hp).2

/-- Witness for the amended C5 on a concrete store and path lists. -/
theorem c5SkipAmendedWitness :
    buildPaths 20 storeC5 true computerRoot
        ["HKEY_CLASSES_ROOT\\SOFTWARE", "HKEY_CLASSES_ROOT\\SOFT"]
      = buildPaths 20 storeC5 true computerRoot ["HKEY_CLASSES_ROOT\\SOFTWARE"]
    ∧ (buildPaths 20 storeC5 false computerRoot
        ["HKEY_CLASSES_ROOT\\SOFTWARE", "HKEY_CLASSES_ROOT\\SOFT"]).isOk = false := by
  have h := c5SkipAmended 20 storeC5 computerRoot ["HKEY_CLASSES_ROOT\\SOFTWARE"] []
    "HKEY_CLASSES_ROOT\\SOFT" (by decide)
  exact h

theorem pySplitChNeNil : ∀ (sep : Char) (l : List Char), pySplitCh sep l ≠ []
  | _, [] => by simp [pySplitCh]
  | sep, c :: rest => by
    simp only [pySplitCh]
    by_cases h : c = sep
    · simp [h]
    · rw [if_neg h]
      cases hr : pySplitCh sep rest with
      | nil => simp
      | cons g gs => simp

theorem pySplitChSingleton : ∀ (sep : Char) (l : List Char), pySplitCh sep l = [l] →
    ∀ m : List Char, pySplitCh sep (l ++ sep :: m) = l :: pySplitCh sep m
  | sep, [], _, m => by
    simp [pySplitCh]
  | sep, c :: rest, h, m => by
    simp only [pySplitCh] at h
    by_cases hc : c = sep
    · rw [if_pos hc] at h
      simp at h
    · rw [if_neg hc] at h
      cases hr : pySplitCh sep rest with
      | nil => exact absurd hr (pySplitChNeNil sep rest)
      | cons g gs =>
        rw [hr] at h
        simp only [List.cons.injEq, true_and] at h
        have hrest : pySplitCh sep rest = [rest] := by rw [hr, h.1, h.2]
        show pySplitCh sep ((c :: rest) ++ sep :: m) = (c :: rest) :: pySplitCh sep m
        rw [List.cons_append]
        simp only [pySplitCh, if_neg hc]
        rw [pySplitChSingleton sep rest hrest m]

theorem mySplitSingletonData (a : String) (ha : mySplit a = [a]) :
    pySplitCh '\\' a.data = [a.data] := by
  unfold mySplit at ha
  cases hr : pySplitCh '\\' a.data with
  | nil => exact absurd hr (pySplitChNeNil _ _)
  | cons g gs =>
    rw [hr] at ha
    cases gs with
    | cons x xs => simp at ha
    | nil =>
      simp only [List.map_cons, List.map_nil, List.cons.injEq, and_true] at ha
      have hg : g = a.data := by rw [← ha]
      rw [hg]

theorem dataAppendSep (a b : String) :
    (a ++ "\\" ++ b).data = a.data ++ '\\' :: b.data := by
  simp [String.data_append]

theorem appendSepNeEmpty (a b : String) : (a ++ "\\" ++ b) ≠ "" := by
  intro h
  have : (a ++ "\\" ++ b).data = ("" : String).data := by rw [h]
  rw [dataAppendSep] at this
  simp at this

theorem mySplitAppendSep (a b : String) (ha : mySplit a = [a]) :
    mySplit (a ++ "\\" ++ b) = a :: mySplit b := by
  unfold mySplit
  rw [dataAppendSep, pySplitChSingleton '\\' a.data (mySplitSingletonData a ha) b.data]
  simp only [List.map_cons]

theorem openSubSingle (e x : XKey) (xname : String) (hne : xname ≠ "")
    (hs : mySplit xname = [xname]) (hf : findChild e.subkeys xname = some x) :
    openSub e xname = some x := by
  unfold openSub
  rw [if_neg hne, hs]
  simp [findPath, hf]

/-- On success the mirror is fuel-irrelevant: a larger fuel produces the
same result (the fuel only bounds the recursion depth). -/
theorem bssGoMono (rec rec' : XKey → RegistryKey → Option String → Except BErr RegistryKey)
    (hrec : ∀ e c no r, rec e c no = .ok r → rec' e c no = .ok r) :
    ∀ (elem : XKey) (names : List String) (acc r : RegistryKey),
    bssChildrenGo rec elem names acc = .ok r → bssChildrenGo rec' elem names acc = .ok r
  | elem, [], acc, r, h => h
  | elem, n :: ns, acc, r, h => by
    simp only [bssChildrenGo] at h ⊢
    cases hr : rec elem (getSubKeyCreate acc n).2 none with
    | error e => rw [hr] at h; exact absurd h (by simp)
    | ok node =>
      rw [hr] at h
      rw [hrec _ _ _ _ hr]
      exact bssGoMono rec rec' hrec elem ns _ r h

theorem bssMono : ∀ (f f' : Nat), f ≤ f' → ∀ (base : XKey) (cur : RegistryKey)
    (no : Option String) (r : RegistryKey), bss f base cur no = .ok r → bss f' base cur no = .ok r
  | 0, _, _, _, _, _, _, h => by simp [bss] at h
  | f + 1, f' + 1, hle, base, cur, no, r, h => by
    simp only [bss] at h ⊢
    cases ho : openSub base (no.getD cur.name) with
    | none =>
      rw [ho] at h
      simp at h
    | some elem =>
      rw [ho] at h
      replace h : (match bssChildrenGo (bss f) elem (elem.subkeys.map XKey.name)
            (setExplicitTrue cur) with
          | Except.error e => Except.error e
          | Except.ok cur2 => addValuesLoop elem.values cur2) = Except.ok r := h
      cases hg : bssChildrenGo (bss f) elem (elem.subkeys.map XKey.name) (setExplicitTrue cur) with
      | error e =>
        rw [hg] at h
        simp at h
      | ok cur2 =>
        rw [hg] at h
        show (match bssChildrenGo (bss f') elem (elem.subkeys.map XKey.name)
              (setExplicitTrue cur) with
            | Except.error e => Except.error e
            | Except.ok cur2 => addValuesLoop elem.values cur2) = Except.ok r
        rw [bssGoMono (bss f) (bss f')
          (fun e c no2 r2 h2 => bssMono f f' (Nat.le_of_succ_le_succ hle) e c no2 r2 h2)
          elem _ _ _ hg]
        exact h

/-- The pairs of a `_sub_keys` dict. -/
def rkPairs : RKList → List (String × RegistryKey)
  | .nil => []
  | .cons key node rest => (key, node) :: rkPairs rest

theorem pairMemKeys : ∀ (l : RKList) (key : String) (node : RegistryKey),
    (key, node) ∈ rkPairs l → key ∈ l.keys
  | .nil, _, _, h => by simp [rkPairs] at h
  | .cons k0 n0 rest, key, node, h => by
    simp only [rkPairs, List.mem_cons, Prod.mk.injEq] at h
    rcases h with ⟨h1, _⟩ | h1
    · simp [RKList.keys, h1]
    · exact List.mem_cons_of_mem _ (pairMemKeys rest key node h1)

theorem findOfNodupPair : ∀ (l : RKList) (key : String) (node : RegistryKey),
    myNodup l.keys = true → (key, node) ∈ rkPairs l → l.find? key = some node
  | .nil, _, _, _, h => by simp [rkPairs] at h
  | .cons k0 n0 rest, key, node, hnd, h => by
    simp only [RKList.keys, myNodup, Bool.and_eq_true, decide_eq_true_eq] at hnd
    simp only [rkPairs, List.mem_cons, Prod.mk.injEq] at h
    rcases h with ⟨h1, h2⟩ | h1
    · simp [RKList.find?, h1, h2]
    · have hk : k0 ≠ key := fun hc => hnd.1 (hc ▸ pairMemKeys rest key node h1)
      simp only [RKList.find?, if_neg hk]
      exact findOfNodupPair rest key node hnd.2 h1

theorem pairWFL : ∀ (l : RKList) (key : String) (node : RegistryKey),
    treeWFL l = true → (key, node) ∈ rkPairs l → treeWF node = true
  | .nil, _, _, _, h => by simp [rkPairs] at h
  | .cons k0 n0 rest, key, node, hwf, h => by
    simp only [treeWFL, Bool.and_eq_true] at hwf
    simp only [rkPairs, List.mem_cons, Prod.mk.injEq] at h
    rcases h with ⟨_, h2⟩ | h1
    · exact h2 ▸ hwf.1
    · exact pairWFL rest key node hwf.2 h1

theorem regValEqRefl (v : RegVal) : regValEq v v = true := by
  simp [regValEq]

theorem vLookupOfNodupPair : ∀ (l : List (String × RegVal)) (key : String) (v : RegVal),
    myNodup (l.map Prod.fst) = true → (key, v) ∈ l → vLookup l key = some v
  | [], _, _, _, h => by simp at h
  | (k0, v0) :: rest, key, v, hnd, h => by
    simp only [List.map_cons, myNodup, Bool.and_eq_true, decide_eq_true_eq] at hnd
    simp only [List.mem_cons, Prod.mk.injEq] at h
    rcases h with ⟨h1, h2⟩ | h1
    · simp [vLookup, h1, h2]
    · have hk : k0 ≠ key := fun hc => hnd.1 (by
        rw [hc]
        exact List.mem_map_of_mem Prod.fst h1)
      simp only [vLookup, if_neg hk]
      exact vLookupOfNodupPair rest key v hnd.2 h1

theorem valuesDictEqRefl (v : List (String × RegVal)) (hnd : myNodup (v.map Prod.fst) = true) :
    valuesDictEq v v = true := by
  simp only [valuesDictEq, beq_self_eq_true, Bool.true_and, List.all_eq_true]
  intro p hp
  rw [vLookupOfNodupPair v p.1 p.2 hnd hp]
  exact regValEqRefl p.2

mutual
theorem regKeyEqReflWF : ∀ k : RegistryKey, treeWF k = true → regKeyEq k k = true
  | .mk n sk v e, h => by
    simp only [treeWFFields, Bool.and_eq_true] at h
    simp only [regKeyEq, Bool.and_eq_true, beq_self_eq_true, true_and]
    exact ⟨rkSubOfReflAux sk sk h.2 h.1.1 (fun key node hmem => findOfNodupPair sk key node h.1.1 hmem),
      valuesDictEqRefl v h.1.2⟩
theorem rkSubOfReflAux : ∀ (l full : RKList), treeWFL l = true →
    myNodup l.keys = true →
    (∀ key node, (key, node) ∈ rkPairs l → full.find? key = some node) →
    rkSubOf l full = true
  | .nil, _, _, _, _ => rfl
  | .cons key node rest, full, hwf, hnd, hfind => by
    simp only [treeWFL, Bool.and_eq_true] at hwf
    simp only [RKList.keys, myNodup, Bool.and_eq_true, decide_eq_true_eq] at hnd
    simp only [rkSubOf, Bool.and_eq_true]
    constructor
    · rw [hfind key node (by simp [rkPairs])]
      exact regKeyEqReflWF node hwf.1
    · exact rkSubOfReflAux rest full hwf.2 hnd.2
        (fun k n hmem => hfind k n (by simp [rkPairs, hmem]))
end

/-- Reflexivity of `RegistryKey.__eq__` on well-formed trees. -/
theorem regKeyEqRefl (k : RegistryKey) (h : treeWF k = true) : regKeyEq k k = true :=
  regKeyEqReflWF k h

@[simp] theorem freshKeyName (n : String) : (freshKey n).name = n := rfl

@[simp] theorem freshKeySub (n : String) : (freshKey n).subKeys = .nil := rfl

@[simp] theorem freshKeyVals (n : String) : (freshKey n).values = [] := rfl

@[simp] theorem freshKeyFlag (n : String) : (freshKey n).isExplicit = false := rfl

@[simp] theorem setExplicitTrueName (k : RegistryKey) : (setExplicitTrue k).name = k.name := by
  cases k
  rfl

@[simp] theorem setExplicitTrueSub (k : RegistryKey) : (setExplicitTrue k).subKeys = k.subKeys := by
  cases k
  rfl

@[simp] theorem setExplicitTrueVals (k : RegistryKey) : (setExplicitTrue k).values = k.values := by
  cases k
  rfl

@[simp] theorem setExplicitTrueFlag (k : RegistryKey) : (setExplicitTrue k).isExplicit = true := by
  cases k
  rfl

/-- A store for the C4 scenario: `Software` has exactly one child key
`Fonts`, and also carries a value of its own. -/
def storeC4 : Store :=
  [XKey.mk "HKEY_CURRENT_CONFIG"
     [XKey.mk "Software"
        [XKey.mk "Fonts" [] [xv "LogPixels" "96" "REG_DWORD_LITTLE_ENDIAN"]]
        [xv "note" "hello" "REG_SZ"]]
     []]

/-- C4 counterexample: in `storeC4`, `Software` has exactly one child
key (`Fonts`) but also a value; the tree built for
`HKEY_CURRENT_CONFIG\Software` mirrors that value into the `Software`
node, while the tree built for `HKEY_CURRENT_CONFIG\Software\Fonts`
leaves the `Software` chain node without values — the two trees are not
`__eq__`-equal, refuting the claim for keys with values. -/
theorem c4OneChildCex :
    ((findChild storeC4 "HKEY_CURRENT_CONFIG").map (fun h =>
        (findChild h.subkeys "Software").map (fun x =>
          (x.subkeys.map XKey.name, x.values.length))))
      = some (some (["Fonts"], 1))
    ∧ exceptRegKeyEq
        (getRegistryTree 20 storeC4 false ["HKEY_CURRENT_CONFIG\\Software"])
        (getRegistryTree 20 storeC4 false ["HKEY_CURRENT_CONFIG\\Software\\Fonts"])
      = some false := by
  decide

/-- C4 amended: for a hive `HIVE` and a key `x` directly under it whose
store node has exactly one child `y` and **no values**, whenever
`get_registry_tree(["HIVE\x"])` succeeds, `get_registry_tree(["HIVE\x\y"])`
succeeds too and the two trees are equal in the sense of
`RegistryKey.__eq__`.  The hypotheses pin the path strings to the exact
store spelling (separator-free segments, no acronym or synthetic-root
rewriting, reduction leaving the singleton path unchanged). -/
theorem c4OneChildAmended
    (fuel : Nat) (store : Store) (ig : Bool)
    (hive xname yname : String) (hc : Int) (hiveElem xElem yElem : XKey)
    (T1 : RegistryKey)
    (Hhs : mySplit hive = [hive])
    (Hxne : xname ≠ "")
    (Hxs : mySplit xname = [xname])
    (Hys : mySplit yname = [yname])
    (Hshort : rootKeyShort.lookup hive = none)
    (Hrt : rootKeyNameToValue hive = .ok hc)
    (Hconn : connectRegistry store hc = .ok hiveElem)
    (HfindX : findChild hiveElem.subkeys xname = some xElem)
    (Hchild : xElem.subkeys = [yElem])
    (Hyname : yElem.name = yname)
    (Hvals : xElem.values = [])
    (Hred1 : removeContainedPaths [hive ++ "\\" ++ xname] = [hive ++ "\\" ++ xname])
    (Hred2 : removeContainedPaths [hive ++ "\\" ++ (xname ++ "\\" ++ yname)]
        = [hive ++ "\\" ++ (xname ++ "\\" ++ yname)])
    (HT1 : getRegistryTree fuel store ig [hive ++ "\\" ++ xname] = .ok T1) :
    ∃ T2, getRegistryTree fuel store ig [hive ++ "\\" ++ (xname ++ "\\" ++ yname)] = .ok T2
      ∧ regKeyEq T1 T2 = true := by
  have hsplit1 : mySplit (hive ++ "\\" ++ xname) = [hive, xname] := by
    rw [mySplitAppendSep hive xname Hhs, Hxs]
  have hsplit2 : mySplit (hive ++ "\\" ++ (xname ++ "\\" ++ yname)) = [hive, xname, yname] := by
    rw [mySplitAppendSep hive _ Hhs, mySplitAppendSep xname yname Hxs, Hys]
  have hopenX : openSub hiveElem xname = some xElem :=
    openSubSingle hiveElem xElem xname Hxne Hxs HfindX
  have hfindY : findChild xElem.subkeys yname = some yElem := by
    rw [Hchild]
    simp [findChild, Hyname]
  have hopenXY : openSub hiveElem (xname ++ "\\" ++ yname) = some yElem := by
    unfold openSub
    rw [if_neg (appendSepNeEmpty xname yname), mySplitAppendSep xname yname Hxs, Hys]
    simp [findPath, HfindX, hfindY]
  have hnames : xElem.subkeys.map XKey.name = [yname] := by
    rw [Hchild]
    simp [Hyname]
  have hopenE : openSub hiveElem "" = some hiveElem := by
    simp [openSub]
  -- reduce the hypothesis build to its leaf mirror call
  unfold getRegistryTree at HT1
  rw [Hred1] at HT1
  simp only [buildPaths, hsplit1, bks, Hshort, Option.getD_none, Hrt, Hconn,
    List.getLast?_singleton, List.dropLast_single, myJoin, hopenX, hopenE,
    getSubKeyCreate, computerRoot, chainLeaf, setChild, freshKeyName, freshKeySub,
    freshKeyVals, freshKeyFlag, RKList.find?, RKList.set,
    eq_self_iff_true, if_true] at HT1
  cases fuel with
  | zero => simp [bss] at HT1
  | succ g =>
    simp only [bss, Option.getD, freshKeyName, hopenX, hnames, bssChildrenGo,
      getSubKeyCreate, setExplicitTrueName, setExplicitTrueSub, setExplicitTrueVals,
      setExplicitTrueFlag, freshKeySub, freshKeyVals, freshKeyFlag,
      RKList.find?, RKList.set, setChild, eq_self_iff_true, if_true] at HT1
    cases hY : bss g xElem (freshKey yname) none with
    | error e =>
      rw [hY] at HT1
      simp [Hvals] at HT1
    | ok Y =>
      rw [hY] at HT1
      simp only [Hvals, addValuesLoop] at HT1
      simp only [RegistryKey.name, RegistryKey.values, RegistryKey.isExplicit] at HT1
      have hY' : bss (g + 1) xElem (freshKey yname) none = .ok Y :=
        bssMono g (g + 1) (Nat.le_succ g) xElem (freshKey yname) none Y hY
      -- compute the second build
      refine ⟨.mk "Computer"
        (.cons (pyLower hive)
          (.mk hive
            (.cons (pyLower xname)
              (.mk xname (.cons (pyLower yname) Y .nil) [] false) .nil)
            [] false) .nil)
        [] false, ?_, ?_⟩
      · unfold getRegistryTree
        rw [Hred2]
        simp only [buildPaths, hsplit2, bks, Hshort, Option.getD_none, Hrt, Hconn,
          List.getLast?_cons_cons, List.getLast?_singleton, List.dropLast_cons₂,
          List.dropLast_single, myJoin, hopenXY, hopenX, getSubKeyCreate,
          computerRoot, chainLeaf, setChild, freshKeyName, freshKeySub, freshKeyVals,
          freshKeyFlag, RKList.find?, RKList.set, eq_self_iff_true,
          if_true, hY']
        simp only [RegistryKey.name, RegistryKey.values, RegistryKey.isExplicit]
      · -- T1 equals the constructed tree up to `__eq__`
        have hwfY : treeWF Y = true := wfBss (g + 1) xElem (freshKey yname) none Y hY' rfl
        rw [← (Except.ok.inj HT1)]
        simp only [regKeyEq, rkSubOf, RKList.find?, RKList.length, valuesDictEq,
          List.length_nil, List.all_nil, Bool.and_true, beq_self_eq_true,
          eq_self_iff_true, if_true, Bool.true_and]
        exact regKeyEqRefl Y hwfY

def hccFonts : XKey :=
  XKey.mk "Fonts" [] [xv "LogPixels" "96" "REG_DWORD_LITTLE_ENDIAN"]

def hccSoftware : XKey :=
  XKey.mk "Software" [hccFonts] []

def hccHive : XKey :=
  XKey.mk "HKEY_CURRENT_CONFIG" [hccSoftware] []

/-- Witness for the amended C4 on the sample store, where `Software`
has the single child `Fonts` and no values. -/
theorem c4OneChildAmendedWitness :
    ∃ T2, getRegistryTree 20 sampleStore false
        ["HKEY_CURRENT_CONFIG" ++ "\\" ++ ("Software" ++ "\\" ++ "Fonts")] = .ok T2
      ∧ regKeyEq (okTree (getRegistryTree 20 sampleStore false
          ["HKEY_CURRENT_CONFIG" ++ "\\" ++ "Software"])) T2 = true := by
  cases hres : getRegistryTree 20 sampleStore false
      ["HKEY_CURRENT_CONFIG" ++ "\\" ++ "Software"] with
  | error e =>
    have hok : (getRegistryTree 20 sampleStore false
        ["HKEY_CURRENT_CONFIG" ++ "\\" ++ "Software"]).isOk = true := by decide
    rw [hres] at hok
    simp [Except.isOk, Except.toBool] at hok
  | ok t =>
    simp only [okTree]
    exact c4OneChildAmended 20 sampleStore false "HKEY_CURRENT_CONFIG" "Software" "Fonts" 6
      hccHive hccSoftware hccFonts t (by decide) (by decide) (by decide) (by decide)
      (by decide) rfl rfl rfl rfl rfl rfl (by decide) (by decide) hres

/-- The tree-chain segments of a reduced path as `_build_key_structure`
materializes them: the first path segment after dict-based acronym
expansion, then the remaining segments. -/
def chainSegs (P : String) : List String :=
  match mySplit P with
  | [] => []
  | r :: rest => ((rootKeyShort.lookup r).getD r) :: rest

/-- The dict-key address of a reduced path's leaf inside the built tree
(the `_sub_keys` dicts are keyed by lower-cased names). -/
def lsegs (P : String) : List String :=
  (chainSegs P).map pyLower

theorem mySplitNeNil (s : String) : mySplit s ≠ [] := by
  unfold mySplit
  cases hr : pySplitCh '\\' s.data with
  | nil => exact absurd hr (pySplitChNeNil _ _)
  | cons g gs => simp

theorem lsegsNeNil (P : String) : lsegs P ≠ [] := by
  unfold lsegs chainSegs
  cases hr : mySplit P with
  | nil => exact absurd hr (mySplitNeNil P)
  | cons r rest => simp

theorem setSetSame : ∀ (l : RKList) (k : String) (v w : RegistryKey),
    (l.set k v).set k w = l.set k w
  | .nil, k, v, w => by simp [RKList.set]
  | .cons key node rest, k, v, w => by
    by_cases h : key = k
    · simp [RKList.set, h]
    · simp [RKList.set, h, setSetSame rest k v w]

theorem setChildAfterCreate (k : RegistryKey) (n : String) (node : RegistryKey) :
    setChild (getSubKeyCreate k n).1 (pyLower n) node
      = .mk k.name (k.subKeys.set (pyLower n) node) k.values k.isExplicit := by
  unfold getSubKeyCreate
  cases hf : k.subKeys.find? (pyLower n) with
  | some c => rfl
  | none =>
    simp only [setChild, RegistryKey.name, RegistryKey.subKeys, RegistryKey.values,
      RegistryKey.isExplicit, setSetSame]

theorem getSubKeyCreateSndNone (k : RegistryKey) (n : String)
    (hf : k.subKeys.find? (pyLower n) = none) : (getSubKeyCreate k n).2 = freshKey n := by
  unfold getSubKeyCreate
  rw [hf]

theorem getSubKeyCreateSndSome (k : RegistryKey) (n : String) (c : RegistryKey)
    (hf : k.subKeys.find? (pyLower n) = some c) : (getSubKeyCreate k n).2 = c := by
  unfold getSubKeyCreate
  rw [hf]

theorem allExplicitProj (k : RegistryKey) :
    allExplicit k = (k.isExplicit && allExplicitL k.subKeys) := by
  cases k
  rfl

theorem allExplicitLFind : ∀ (l : RKList) (a : String) (c : RegistryKey),
    allExplicitL l = true → l.find? a = some c → allExplicit c = true
  | .nil, _, _, _, h => by simp [RKList.find?] at h
  | .cons key node rest, a, c, hall, h => by
    simp only [allExplicitL, Bool.and_eq_true] at hall
    simp only [RKList.find?] at h
    by_cases hk : key = a
    · rw [if_pos hk] at h
      injection h with h2
      exact h2 ▸ hall.1
    · exact allExplicitLFind rest a c hall.2 (by simpa [hk] using h)

theorem nodeAtNil (k : RegistryKey) : nodeAt k [] = some k := rfl

theorem nodeAtCons (k : RegistryKey) (a : String) (rest : List String) :
    nodeAt k (a :: rest)
      = (match k.subKeys.find? a with
         | some c => nodeAt c rest
         | none => none) := rfl

theorem allExplicitNodeAt : ∀ (addr : List String) (k u : RegistryKey),
    allExplicit k = true → nodeAt k addr = some u → u.isExplicit = true
  | [], k, u, h, hn => by
    rw [nodeAtNil] at hn
    injection hn with h2
    rw [← h2]
    rw [allExplicitProj, Bool.and_eq_true] at h
    exact h.1
  | a :: rest, k, u, h, hn => by
    rw [nodeAtCons] at hn
    cases hf : k.subKeys.find? a with
    | none => rw [hf] at hn; exact absurd hn (by simp)
    | some c =>
      rw [hf] at hn
      rw [allExplicitProj, Bool.and_eq_true] at h
      exact allExplicitNodeAt rest c u (allExplicitLFind _ _ _ h.2 hf) hn

theorem allExplicitLSet : ∀ (l : RKList) (k : String) (v : RegistryKey),
    allExplicitL l = true → allExplicit v = true → allExplicitL (l.set k v) = true
  | .nil, k, v, _, hv => by simp [RKList.set, allExplicitL, hv]
  | .cons key node rest, k, v, hall, hv => by
    simp only [allExplicitL, Bool.and_eq_true] at hall
    by_cases h : key = k
    · simp [RKList.set, h, allExplicitL, hv, hall.2]
    · simp [RKList.set, h, allExplicitL, hall.1, allExplicitLSet rest k v hall.2 hv]

theorem addValueMeta (k : RegistryKey) (v : RegVal) (k' : RegistryKey)
    (h : addValue k v = .ok k') :
    k'.subKeys = k.subKeys ∧ k'.isExplicit = k.isExplicit ∧ k'.name = k.name := by
  unfold addValue at h
  cases hf : vLookup k.values (pyLower v.name) with
  | some _ => rw [hf] at h; exact absurd h (by simp)
  | none =>
    rw [hf] at h
    injection h with h2
    rw [← h2]
    exact ⟨rfl, rfl, rfl⟩

theorem addValuesLoopMeta : ∀ (vs : List XVal) (k r : RegistryKey),
    addValuesLoop vs k = .ok r →
    r.subKeys = k.subKeys ∧ r.isExplicit = k.isExplicit ∧ r.name = k.name
  | [], k, r, h => by
    simp only [addValuesLoop] at h
    injection h with h2
    rw [h2]
    exact ⟨rfl, rfl, rfl⟩
  | v :: vs, k, r, h => by
    simp only [addValuesLoop] at h
    cases he : enumValue v with
    | error e => simp [he] at h
    | ok tr =>
      simp only [he] at h
      cases hm : mkRegistryValue tr.1 tr.2.1 tr.2.2 with
      | error e => simp [hm] at h
      | ok rv =>
        simp only [hm] at h
        cases ha : addValue k rv with
        | error e => simp [ha] at h
        | ok k1 =>
          simp only [ha] at h
          have h1 := addValuesLoopMeta vs k1 r h
          have h2 := addValueMeta k rv k1 ha
          exact ⟨h1.1.trans h2.1, h1.2.1.trans h2.2.1, h1.2.2.trans h2.2.2⟩

/-- Every node of a subtree built by the mirror step carries
`_is_explicit = True`, provided the pre-existing children of the start
node do. -/
theorem bssGoAllExplicit
    (rec : XKey → RegistryKey → Option String → Except BErr RegistryKey)
    (hrec : ∀ e c no r, rec e c no = .ok r → allExplicitL c.subKeys = true →
      allExplicit r = true) :
    ∀ (elem : XKey) (names : List String) (acc r : RegistryKey),
    bssChildrenGo rec elem names acc = .ok r → allExplicit acc = true → allExplicit r = true
  | elem, [], acc, r, h, hacc => by
    simp only [bssChildrenGo] at h
    injection h with h2
    exact h2 ▸ hacc
  | elem, n :: ns, acc, r, h, hacc => by
    simp only [bssChildrenGo] at h
    cases hr : rec elem (getSubKeyCreate acc n).2 none with
    | error e => rw [hr] at h; exact absurd h (by simp)
    | ok node =>
      rw [hr] at h
      rw [allExplicitProj, Bool.and_eq_true] at hacc
      have hchild : allExplicitL ((getSubKeyCreate acc n).2).subKeys = true := by
        cases hf : acc.subKeys.find? (pyLower n) with
        | some c =>
          rw [getSubKeyCreateSndSome acc n c hf]
          have := allExplicitLFind _ _ _ hacc.2 hf
          rw [allExplicitProj, Bool.and_eq_true] at this
          exact this.2
        | none =>
          rw [getSubKeyCreateSndNone acc n hf]
          rfl
      have hnode : allExplicit node = true := hrec _ _ _ _ hr hchild
      have hstep : allExplicit (setChild (getSubKeyCreate acc n).1 (pyLower n) node) = true := by
        rw [setChildAfterCreate, allExplicitProj]
        simp only [RegistryKey.isExplicit, RegistryKey.subKeys, Bool.and_eq_true]
        exact ⟨hacc.1, allExplicitLSet _ _ _ hacc.2 hnode⟩
      exact bssGoAllExplicit rec hrec elem ns _ r h hstep

theorem bssAllExplicit : ∀ (f : Nat) (base : XKey) (cur : RegistryKey)
    (no : Option String) (r : RegistryKey), bss f base cur no = .ok r →
    allExplicitL cur.subKeys = true → allExplicit r = true
  | 0, _, _, _, _, h, _ => by simp [bss] at h
  | f + 1, base, cur, no, r, h, hcur => by
    simp only [bss] at h
    cases ho : openSub base (no.getD cur.name) with
    | none => rw [ho] at h; exact absurd h (by simp)
    | some elem =>
      rw [ho] at h
      replace h : (match bssChildrenGo (bss f) elem (elem.subkeys.map XKey.name)
            (setExplicitTrue cur) with
          | Except.error e => Except.error e
          | Except.ok cur2 => addValuesLoop elem.values cur2) = Except.ok r := h
      cases hg : bssChildrenGo (bss f) elem (elem.subkeys.map XKey.name) (setExplicitTrue cur) with
      | error e => rw [hg] at h; exact absurd h (by simp)
      | ok cur2 =>
        rw [hg] at h
        have hstart : allExplicit (setExplicitTrue cur) = true := by
          rw [allExplicitProj, setExplicitTrueFlag, setExplicitTrueSub]
          simpa using hcur
        have h2 : allExplicit cur2 = true :=
          bssGoAllExplicit (bss f)
            (fun e c no2 r2 hr hc => bssAllExplicit f e c no2 r2 hr hc) elem _ _ _ hg hstart
        have hm := addValuesLoopMeta elem.values cur2 r h
        rw [allExplicitProj, hm.1, hm.2.1]
        rw [allExplicitProj] at h2
        exact h2

/-- Zone description for the effect of building one path: the address
either lies at or below the requested leaf (explicit), or is a freshly
created chain ancestor (implicit), or is untouched. -/
def zoneProp (t : RegistryKey) (L addr : List String) (u : RegistryKey) : Prop :=
  (L <+: addr ∧ u.isExplicit = true)
  ∨ (¬ (L <+: addr) ∧ addr <+: L ∧ addr ≠ L ∧ nodeAt t addr = none ∧ u.isExplicit = false)
  ∨ (¬ (L <+: addr) ∧ ∃ u0, nodeAt t addr = some u0 ∧ u.isExplicit = u0.isExplicit)

theorem nodeAtFreshCons (n a : String) (rest : List String) :
    nodeAt (freshKey n) (a :: rest) = none := rfl

theorem subKeysMk (n : String) (sk : RKList) (v : List (String × RegVal)) (e : Bool) :
    (RegistryKey.mk n sk v e).subKeys = sk := rfl

theorem nodeAtFreshAppend (n : String) (l1 : List String) (x : String) :
    nodeAt (freshKey n) (l1 ++ [x]) = none := by
  cases l1 with
  | nil => exact nodeAtFreshCons n x []
  | cons a rest => exact nodeAtFreshCons n a (rest ++ [x])

/-- Effect of the chain walk plus leaf mirror on every address: at or
below the leaf everything is explicit; freshly created chain ancestors
are implicit; everything else is untouched.  The hypothesis says the
leaf address is not yet populated (guaranteed by path reduction for
pairwise non-prefix reduced paths). -/
theorem chainZones : ∀ (middles : List String) (fuel : Nat) (subElem : XKey) (leafStr : String)
    (node r : RegistryKey),
    chainLeaf fuel subElem leafStr node middles = .ok r →
    nodeAt node (middles.map pyLower ++ [pyLower leafStr]) = none →
    (r.name = node.name ∧ r.values = node.values ∧ r.isExplicit = node.isExplicit)
    ∧ ∀ addr u, nodeAt r addr = some u →
        zoneProp node (middles.map pyLower ++ [pyLower leafStr]) addr u
  | [], fuel, subElem, leafStr, node, r, h, hfresh => by
    simp only [chainLeaf] at h
    simp only [List.map_nil, List.nil_append] at hfresh ⊢
    have hfind : node.subKeys.find? (pyLower leafStr) = none := by
      rw [nodeAtCons] at hfresh
      cases hf : node.subKeys.find? (pyLower leafStr) with
      | none => rfl
      | some c =>
        rw [hf] at hfresh
        simp [nodeAtNil] at hfresh
    rw [getSubKeyCreateSndNone node leafStr hfind] at h
    cases hY : bss fuel subElem (freshKey leafStr) none with
    | error e => simp [hY] at h
    | ok Y =>
      simp only [hY] at h
      injection h with h2
      have hYex : allExplicit Y = true :=
        bssAllExplicit fuel subElem (freshKey leafStr) none Y hY rfl
      constructor
      · rw [← h2, setChildAfterCreate]
        exact ⟨rfl, rfl, rfl⟩
      · intro addr u hn
        unfold zoneProp
        rw [← h2, setChildAfterCreate] at hn
        cases addr with
        | nil =>
          rw [nodeAtNil] at hn
          injection hn with h3
          refine Or.inr (Or.inr ⟨by simp, node, nodeAtNil node, ?_⟩)
          rw [← h3]
          rfl
        | cons a rest =>
          rw [nodeAtCons] at hn
          simp only [subKeysMk] at hn
          by_cases ha : a = pyLower leafStr
          · subst ha
            rw [findSetSame] at hn
            exact Or.inl ⟨List.cons_prefix_cons.mpr ⟨rfl, List.nil_prefix⟩,
              allExplicitNodeAt rest Y u hYex hn⟩
          · rw [findSetOther _ _ _ _ ha] at hn
            cases hf2 : node.subKeys.find? a with
            | none =>
              rw [hf2] at hn
              exact absurd hn (by simp)
            | some c =>
              rw [hf2] at hn
              refine Or.inr (Or.inr ⟨?_, u, ?_, rfl⟩)
              · intro hc
                exact ha ((List.cons_prefix_cons.mp hc).1).symm
              · rw [nodeAtCons, hf2]
                exact hn
  | m :: ms, fuel, subElem, leafStr, node, r, h, hfresh => by
    simp only [chainLeaf] at h
    simp only [List.map_cons, List.cons_append] at hfresh ⊢
    cases hmid : chainLeaf fuel subElem leafStr (getSubKeyCreate node m).2 ms with
    | error e => simp [hmid] at h
    | ok mid =>
      simp only [hmid] at h
      injection h with h2
      have hchildfresh :
          nodeAt (getSubKeyCreate node m).2 (ms.map pyLower ++ [pyLower leafStr]) = none := by
        rw [nodeAtCons] at hfresh
        cases hf : node.subKeys.find? (pyLower m) with
        | some c =>
          rw [getSubKeyCreateSndSome node m c hf]
          rw [hf] at hfresh
          exact hfresh
        | none =>
          rw [getSubKeyCreateSndNone node m hf]
          exact nodeAtFreshAppend m (ms.map pyLower) (pyLower leafStr)
      obtain ⟨⟨hmn, hmv, hme⟩, hzone⟩ :=
        chainZones ms fuel subElem leafStr (getSubKeyCreate node m).2 mid hmid hchildfresh
      constructor
      · rw [← h2, setChildAfterCreate]
        exact ⟨rfl, rfl, rfl⟩
      · intro addr u hn
        unfold zoneProp
        rw [← h2, setChildAfterCreate] at hn
        cases addr with
        | nil =>
          rw [nodeAtNil] at hn
          injection hn with h3
          refine Or.inr (Or.inr ⟨by simp, node, nodeAtNil node, ?_⟩)
          rw [← h3]
          rfl
        | cons a rest =>
          rw [nodeAtCons] at hn
          simp only [subKeysMk] at hn
          by_cases ha : a = pyLower m
          · subst ha
            rw [findSetSame] at hn
            rcases hzone rest u hn with ⟨hpre, hex⟩ |
              ⟨hnpre, hpre2, hne, hnone, hflag⟩ | ⟨hnpre, u0, hu0, hflag⟩
            · exact Or.inl ⟨List.cons_prefix_cons.mpr ⟨rfl, hpre⟩, hex⟩
            · refine Or.inr (Or.inl ⟨?_, List.cons_prefix_cons.mpr ⟨rfl, hpre2⟩, ?_, ?_, hflag⟩)
              · intro hc
                exact hnpre ((List.cons_prefix_cons.mp hc).2)
              · intro hc
                injection hc with _ h4
                exact hne h4
              · rw [nodeAtCons]
                cases hf : node.subKeys.find? (pyLower m) with
                | some c =>
                  rw [getSubKeyCreateSndSome node m c hf] at hnone
                  exact hnone
                | none => rfl
            · cases hf : node.subKeys.find? (pyLower m) with
              | some c =>
                rw [getSubKeyCreateSndSome node m c hf] at hu0
                refine Or.inr (Or.inr ⟨?_, u0, ?_, hflag⟩)
                · intro hc
                  exact hnpre ((List.cons_prefix_cons.mp hc).2)
                · rw [nodeAtCons, hf]
                  exact hu0
              | none =>
                rw [getSubKeyCreateSndNone node m hf] at hu0
                cases rest with
                | cons b bs =>
                  rw [nodeAtFreshCons] at hu0
                  exact absurd hu0 (by simp)
                | nil =>
                  rw [nodeAtNil] at hu0
                  injection hu0 with h4
                  refine Or.inr (Or.inl ⟨?_, List.cons_prefix_cons.mpr ⟨rfl, List.nil_prefix⟩,
                    ?_, ?_, ?_⟩)
                  · intro hc
                    exact hnpre ((List.cons_prefix_cons.mp hc).2)
                  · intro hc
                    injection hc with _ h5
                    exact absurd h5.symm (by simp)
                  · rw [nodeAtCons, hf]
                  · rw [hflag, ← h4]
                    rfl
          · rw [findSetOther _ _ _ _ ha] at hn
            cases hf2 : node.subKeys.find? a with
            | none =>
              rw [hf2] at hn
              exact absurd hn (by simp)
            | some c =>
              rw [hf2] at hn
              refine Or.inr (Or.inr ⟨?_, u, ?_, rfl⟩)
              · intro hc
                exact ha ((List.cons_prefix_cons.mp hc).1).symm
              · rw [nodeAtCons, hf2]
                exact hn


theorem dropLastGetLast : ∀ (l : List String) (a : String), l.getLast? = some a →
    l.dropLast ++ [a] = l
  | [], a, h => by simp at h
  | [x], a, h => by
    rw [List.getLast?_singleton] at h
    injection h with h2
    subst h2
    rfl
  | x :: y :: ys, a, h => by
    rw [List.getLast?_cons_cons] at h
    have ih := dropLastGetLast (y :: ys) a h
    rw [List.dropLast_cons₂, List.cons_append, ih]

/-- Zones for the hive-mirror corner case: the mirrored child subtree is
all-explicit, the parent and siblings are untouched. -/
theorem zoneMirrorBase (t : RegistryKey) (nm : String) (Y : RegistryKey)
    (hYex : allExplicit Y = true) :
    ∀ addr u,
      nodeAt (setChild (getSubKeyCreate t nm).1 (pyLower nm) Y) addr = some u →
      zoneProp t [pyLower nm] addr u := by
  intro addr u hn
  unfold zoneProp
  rw [setChildAfterCreate] at hn
  cases addr with
  | nil =>
    rw [nodeAtNil] at hn
    injection hn with h3
    refine Or.inr (Or.inr ⟨by simp, t, nodeAtNil t, ?_⟩)
    rw [← h3]
    rfl
  | cons a rest =>
    rw [nodeAtCons] at hn
    simp only [subKeysMk] at hn
    by_cases ha : a = pyLower nm
    · subst ha
      rw [findSetSame] at hn
      exact Or.inl ⟨List.cons_prefix_cons.mpr ⟨rfl, List.nil_prefix⟩,
        allExplicitNodeAt rest Y u hYex hn⟩
    · rw [findSetOther _ _ _ _ ha] at hn
      cases hf2 : t.subKeys.find? a with
      | none =>
        rw [hf2] at hn
        exact absurd hn (by simp)
      | some c =>
        rw [hf2] at hn
        refine Or.inr (Or.inr ⟨?_, u, ?_, rfl⟩)
        · intro hc
          exact ha ((List.cons_prefix_cons.mp hc).1).symm
        · rw [nodeAtCons, hf2]
          exact hn

/-- Lifting a zone description one level up through
`get_sub_key(create_if_missing=True)` followed by the write-back of the
mutated child. -/
theorem zoneConsLift (t mid : RegistryKey) (m : String) (L : List String) (hL : L ≠ [])
    (hzone : ∀ addr u, nodeAt mid addr = some u →
      zoneProp (getSubKeyCreate t m).2 L addr u) :
    ∀ addr u, nodeAt (setChild (getSubKeyCreate t m).1 (pyLower m) mid) addr = some u →
      zoneProp t (pyLower m :: L) addr u := by
  intro addr u hn
  unfold zoneProp
  rw [setChildAfterCreate] at hn
  cases addr with
  | nil =>
    rw [nodeAtNil] at hn
    injection hn with h3
    refine Or.inr (Or.inr ⟨by simp, t, nodeAtNil t, ?_⟩)
    rw [← h3]
    rfl
  | cons a rest =>
    rw [nodeAtCons] at hn
    simp only [subKeysMk] at hn
    by_cases ha : a = pyLower m
    · subst ha
      rw [findSetSame] at hn
      rcases hzone rest u hn with ⟨hpre, hex⟩ |
        ⟨hnpre, hpre2, hne, hnone, hflag⟩ | ⟨hnpre, u0, hu0, hflag⟩
      · exact Or.inl ⟨List.cons_prefix_cons.mpr ⟨rfl, hpre⟩, hex⟩
      · refine Or.inr (Or.inl ⟨?_, List.cons_prefix_cons.mpr ⟨rfl, hpre2⟩, ?_, ?_, hflag⟩)
        · intro hc
          exact hnpre ((List.cons_prefix_cons.mp hc).2)
        · intro hc
          injection hc with _ h4
          exact hne h4
        · rw [nodeAtCons]
          cases hf : t.subKeys.find? (pyLower m) with
          | some c =>
            rw [getSubKeyCreateSndSome t m c hf] at hnone
            exact hnone
          | none => rfl
      · cases hf : t.subKeys.find? (pyLower m) with
        | some c =>
          rw [getSubKeyCreateSndSome t m c hf] at hu0
          refine Or.inr (Or.inr ⟨?_, u0, ?_, hflag⟩)
          · intro hc
            exact hnpre ((List.cons_prefix_cons.mp hc).2)
          · rw [nodeAtCons, hf]
            exact hu0
        | none =>
          rw [getSubKeyCreateSndNone t m hf] at hu0
          cases rest with
          | cons b bs =>
            rw [nodeAtFreshCons] at hu0
            exact absurd hu0 (by simp)
          | nil =>
            rw [nodeAtNil] at hu0
            injection hu0 with h4
            refine Or.inr (Or.inl ⟨?_, List.cons_prefix_cons.mpr ⟨rfl, List.nil_prefix⟩,
              ?_, ?_, ?_⟩)
            · intro hc
              exact hnpre ((List.cons_prefix_cons.mp hc).2)
            · intro hc
              injection hc with _ h5
              exact hL h5.symm
            · rw [nodeAtCons, hf]
            · rw [hflag, ← h4]
              rfl
    · rw [findSetOther _ _ _ _ ha] at hn
      cases hf2 : t.subKeys.find? a with
      | none =>
        rw [hf2] at hn
        exact absurd hn (by simp)
      | some c =>
        rw [hf2] at hn
        refine Or.inr (Or.inr ⟨?_, u, ?_, rfl⟩)
        · intro hc
          exact ha ((List.cons_prefix_cons.mp hc).1).symm
        · rw [nodeAtCons, hf2]
          exact hn

/-- A successful `_build_key_structure` call either had a successful
probe, or a failed probe under `ignore_missing_keys = True` (in which
case the tree is returned unchanged). -/
theorem bksOkCases (fuel : Nat) (store : Store) (ig : Bool) (t : RegistryKey) (P : String)
    (t' : RegistryKey) (hb : bks fuel store ig t P = .ok t') :
    probeClass store P = .found
    ∨ (probeClass store P = .missing ∧ ig = true ∧ t' = t) := by
  unfold bks at hb
  unfold probeClass
  cases hs : mySplit P with
  | nil =>
    simp only [hs] at hb
    exact absurd hb (by simp)
  | cons r0 rest =>
    simp only [hs] at hb ⊢
    cases hrv : rootKeyNameToValue ((rootKeyShort.lookup r0).getD r0) with
    | error e =>
      simp only [hrv] at hb
      exact absurd hb (by simp)
    | ok c =>
      simp only [hrv] at hb ⊢
      cases hcn : connectRegistry store c with
      | error e =>
        simp only [hcn] at hb
        exact absurd hb (by simp)
      | ok rootElem =>
        simp only [hcn] at hb ⊢
        cases hop : openSub rootElem (myJoin rest) with
        | none =>
          simp only [hop] at hb ⊢
          cases ig with
          | false => simp at hb
          | true =>
            simp only [if_true] at hb
            injection hb with h2
            exact Or.inr ⟨trivial, rfl, h2.symm⟩
        | some probed =>
          simp only [hop]
          exact Or.inl trivial

/-- Zone description for one successful `_build_key_structure` call with
a successful probe, provided the requested address is not yet populated:
the leaf subtree is explicit, freshly created chain ancestors (hive
included) are implicit, every other node is untouched. -/
theorem bksZones (fuel : Nat) (store : Store) (ig : Bool) (t : RegistryKey) (P : String)
    (t' : RegistryKey) (hb : bks fuel store ig t P = .ok t')
    (hfound : probeClass store P = .found)
    (hfresh : nodeAt t (lsegs P) = none) :
    ∀ addr u, nodeAt t' addr = some u → zoneProp t (lsegs P) addr u := by
  unfold bks at hb
  unfold probeClass at hfound
  cases hs : mySplit P with
  | nil =>
    simp only [hs] at hb
    exact absurd hb (by simp)
  | cons r0 rest =>
    simp only [hs] at hb hfound
    have hlsegs : lsegs P = pyLower ((rootKeyShort.lookup r0).getD r0) :: rest.map pyLower := by
      simp [lsegs, chainSegs, hs]
    cases hrv : rootKeyNameToValue ((rootKeyShort.lookup r0).getD r0) with
    | error e =>
      simp only [hrv] at hb
      exact absurd hb (by simp)
    | ok c =>
      simp only [hrv] at hb hfound
      cases hcn : connectRegistry store c with
      | error e =>
        simp only [hcn] at hb
        exact absurd hb (by simp)
      | ok rootElem =>
        simp only [hcn] at hb hfound
        cases hop : openSub rootElem (myJoin rest) with
        | none =>
          simp only [hop] at hfound
          exact ProbeRes.noConfusion hfound
        | some probed =>
          simp only [hop] at hb
          cases hl : rest.getLast? with
          | none =>
            simp only [hl] at hb
            have hrest : rest = [] := List.getLast?_eq_none_iff.mp hl
            subst hrest
            have hfind : t.subKeys.find? (pyLower ((rootKeyShort.lookup r0).getD r0))
                = none := by
              rw [hlsegs, nodeAtCons] at hfresh
              cases hf : t.subKeys.find? (pyLower ((rootKeyShort.lookup r0).getD r0)) with
              | none => rfl
              | some c2 =>
                rw [hf] at hfresh
                simp [nodeAtNil] at hfresh
            cases hY : bss fuel rootElem
                (getSubKeyCreate t ((rootKeyShort.lookup r0).getD r0)).2 (some "") with
            | error e =>
              simp only [hY] at hb
              exact absurd hb (by simp)
            | ok Y =>
              simp only [hY] at hb
              injection hb with h2
              have hYex : allExplicit Y = true := by
                refine bssAllExplicit fuel rootElem _ (some "") Y hY ?_
                rw [getSubKeyCreateSndNone t _ hfind]
                rfl
              rw [hlsegs]
              simp only [List.map_nil]
              rw [← h2]
              exact zoneMirrorBase t _ Y hYex
          | some leafStr =>
            simp only [hl] at hb
            cases hop2 : openSub rootElem (myJoin rest.dropLast) with
            | none =>
              simp only [hop2] at hb
              exact absurd hb (by simp)
            | some subElem =>
              simp only [hop2] at hb
              cases hcl : chainLeaf fuel subElem leafStr
                  (getSubKeyCreate t ((rootKeyShort.lookup r0).getD r0)).2 rest.dropLast with
              | error e =>
                simp only [hcl] at hb
                exact absurd hb (by simp)
              | ok R =>
                simp only [hcl] at hb
                injection hb with h2
                have hrest : rest.dropLast ++ [leafStr] = rest := dropLastGetLast rest leafStr hl
                have hmap : rest.map pyLower
                    = rest.dropLast.map pyLower ++ [pyLower leafStr] := by
                  conv_lhs => rw [← hrest]
                  simp
                have hALT : lsegs P = pyLower ((rootKeyShort.lookup r0).getD r0)
                    :: (rest.dropLast.map pyLower ++ [pyLower leafStr]) := by
                  rw [hlsegs, hmap]
                have hchainfresh :
                    nodeAt (getSubKeyCreate t ((rootKeyShort.lookup r0).getD r0)).2
                      (rest.dropLast.map pyLower ++ [pyLower leafStr]) = none := by
                  rw [hALT, nodeAtCons] at hfresh
                  cases hf : t.subKeys.find? (pyLower ((rootKeyShort.lookup r0).getD r0)) with
                  | some c2 =>
                    rw [getSubKeyCreateSndSome t _ c2 hf]
                    rw [hf] at hfresh
                    exact hfresh
                  | none =>
                    rw [getSubKeyCreateSndNone t _ hf]
                    exact nodeAtFreshAppend _ _ _
                obtain ⟨_, hzone⟩ := chainZones rest.dropLast fuel subElem leafStr
                  (getSubKeyCreate t ((rootKeyShort.lookup r0).getD r0)).2 R hcl hchainfresh
                rw [hALT, ← h2]
                exact zoneConsLift t R ((rootKeyShort.lookup r0).getD r0)
                  (rest.dropLast.map pyLower ++ [pyLower leafStr]) (by simp) hzone

/-- The lower-cased address segments of a requested path, as
`_build_key_structure` resolves them: the first split segment after the
acronym dict lookup, then the remaining split segments. -/
def sepPaths (Q P : String) : Prop :=
  ¬ (lsegs Q <+: lsegs P) ∧ ¬ (lsegs P <+: lsegs Q)

/-- After building the paths `done`, the nodes carrying
`_is_explicit = True` are exactly the nodes at or below a built path
whose probe succeeded. -/
def explicitInv (store : Store) (done : List String) (t : RegistryKey) : Prop :=
  ∀ addr u, nodeAt t addr = some u →
    (u.isExplicit = true ↔ ∃ P, P ∈ done ∧ probeClass store P = .found ∧ lsegs P <+: addr)

/-- After building the paths `done`, every populated address is the root
or prefix-comparable with a built path whose probe succeeded. -/
def domInv (store : Store) (done : List String) (t : RegistryKey) : Prop :=
  ∀ addr u, nodeAt t addr = some u →
    addr = [] ∨ ∃ P, P ∈ done ∧ probeClass store P = .found
      ∧ (lsegs P <+: addr ∨ addr <+: lsegs P)

theorem explicitInvSnoc (store : Store) (done : List String) (p : String) (t : RegistryKey)
    (hnp : probeClass store p ≠ .found) (h : explicitInv store done t) :
    explicitInv store (done ++ [p]) t := by
  intro addr u hn
  rw [h addr u hn]
  constructor
  · rintro ⟨P, hP, hf, hpre⟩
    exact ⟨P, List.mem_append_left _ hP, hf, hpre⟩
  · rintro ⟨P, hP, hf, hpre⟩
    rcases List.mem_append.mp hP with hP2 | hP2
    · exact ⟨P, hP2, hf, hpre⟩
    · rw [List.mem_singleton] at hP2
      subst hP2
      exact absurd hf hnp

theorem domInvSnoc (store : Store) (done : List String) (p : String) (t : RegistryKey)
    (h : domInv store done t) : domInv store (done ++ [p]) t := by
  intro addr u hn
  rcases h addr u hn with h0 | ⟨P, hP, hf, hpre⟩
  · exact Or.inl h0
  · exact Or.inr ⟨P, List.mem_append_left _ hP, hf, hpre⟩

/-- The invariant of the `get_registry_tree` loop: building a list of
pairwise prefix-incomparable paths extends the explicit-flag
characterization and the populated-address bound from the already-built
paths to the whole list. -/
theorem buildPathsInv : ∀ (ps : List String) (fuel : Nat) (store : Store) (ig : Bool)
    (done : List String) (t t' : RegistryKey),
    buildPaths fuel store ig t ps = .ok t' →
    (∀ P, P ∈ ps → ∀ Q, Q ∈ done → sepPaths Q P) →
    List.Pairwise sepPaths ps →
    explicitInv store done t → domInv store done t →
    explicitInv store (done ++ ps) t' ∧ domInv store (done ++ ps) t'
  | [], fuel, store, ig, done, t, t', hb, _, _, hE, hD => by
    simp only [buildPaths] at hb
    injection hb with h2
    subst h2
    simpa using ⟨hE, hD⟩
  | p :: ps, fuel, store, ig, done, t, t', hb, hcross, hpw, hE, hD => by
    simp only [buildPaths] at hb
    cases hb1 : bks fuel store ig t p with
    | error e =>
      simp only [hb1] at hb
      exact absurd hb (by simp)
    | ok t1 =>
      simp only [hb1] at hb
      have hpw' := List.pairwise_cons.mp hpw
      have hcross' : ∀ P, P ∈ ps → ∀ Q, Q ∈ done ++ [p] → sepPaths Q P := by
        intro P hP Q hQ
        rcases List.mem_append.mp hQ with hQ2 | hQ2
        · exact hcross P (List.mem_cons_of_mem _ hP) Q hQ2
        · rw [List.mem_singleton] at hQ2
          subst hQ2
          exact hpw'.1 P hP
      rcases bksOkCases fuel store ig t p t1 hb1 with hfound | ⟨hmiss, _, ht1⟩
      · have hfresh : nodeAt t (lsegs p) = none := by
          cases hf : nodeAt t (lsegs p) with
          | none => rfl
          | some u0 =>
            rcases hD (lsegs p) u0 hf with h0 | ⟨Q, hQ, _, hpre⟩
            · exact absurd h0 (lsegsNeNil p)
            · rcases hpre with hpre | hpre
              · exact absurd hpre (hcross p (List.mem_cons_self p ps) Q hQ).1
              · exact absurd hpre (hcross p (List.mem_cons_self p ps) Q hQ).2
        have hz := bksZones fuel store ig t p t1 hb1 hfound hfresh
        have hE1 : explicitInv store (done ++ [p]) t1 := by
          intro addr u hn
          rcases hz addr u hn with ⟨hpre, hex⟩ |
            ⟨hnpre, hpre2, _, _, hflag⟩ | ⟨hnpre, u0, hu0, hflag⟩
          · exact iff_of_true hex ⟨p, by simp, hfound, hpre⟩
          · refine iff_of_false (by simp [hflag]) ?_
            rintro ⟨Q, hQ, hQf, hQpre⟩
            rcases List.mem_append.mp hQ with hQ2 | hQ2
            · exact (hcross p (List.mem_cons_self p ps) Q hQ2).1 (hQpre.trans hpre2)
            · rw [List.mem_singleton] at hQ2
              subst hQ2
              exact hnpre hQpre
          · rw [hflag, hE addr u0 hu0]
            constructor
            · rintro ⟨Q, hQ, hQf, hQpre⟩
              exact ⟨Q, List.mem_append_left _ hQ, hQf, hQpre⟩
            · rintro ⟨Q, hQ, hQf, hQpre⟩
              rcases List.mem_append.mp hQ with hQ2 | hQ2
              · exact ⟨Q, hQ2, hQf, hQpre⟩
              · rw [List.mem_singleton] at hQ2
                subst hQ2
                exact absurd hQpre hnpre
        have hD1 : domInv store (done ++ [p]) t1 := by
          intro addr u hn
          rcases hz addr u hn with ⟨hpre, _⟩ | ⟨_, hpre2, _, _, _⟩ | ⟨_, u0, hu0, _⟩
          · exact Or.inr ⟨p, by simp, hfound, Or.inl hpre⟩
          · exact Or.inr ⟨p, by simp, hfound, Or.inr hpre2⟩
          · rcases hD addr u0 hu0 with h0 | ⟨Q, hQ, hQf, hQpre⟩
            · exact Or.inl h0
            · exact Or.inr ⟨Q, List.mem_append_left _ hQ, hQf, hQpre⟩
        have hrec := buildPathsInv ps fuel store ig (done ++ [p]) t1 t' hb
          hcross' hpw'.2 hE1 hD1
        rw [List.append_assoc, List.singleton_append] at hrec
        exact hrec
      · rw [ht1] at hb
        have hnp : probeClass store p ≠ .found := by
          rw [hmiss]
          exact fun hc => ProbeRes.noConfusion hc
        have hrec := buildPathsInv ps fuel store ig (done ++ [p]) t t' hb
          hcross' hpw'.2 (explicitInvSnoc store done p t hnp hE) (domInvSnoc store done p t hD)
        rw [List.append_assoc, List.singleton_append] at hrec
        exact hrec

/-- C2: counterexample.  In the tree built for the single requested
(already reduced) path `HKEY_CLASSES_ROOT\.386`, the hive key
`HKEY_CLASSES_ROOT` lies on the chain from the Root to the requested
leaf, yet its `is_explicit` flag is `False`; only the leaf `.386` (and
its subtree) is marked explicit.  `_build_key_structure` creates the
chain keys with the default flag and only `_build_subkey_structure`
(run on the leaf) sets the flag, so the claim's "every key on the chain
from the Root down to the requested leaf has isExplicit = true" fails. -/
theorem c2ExplicitCex :
    resultFlagAt (getRegistryTree 8 sampleStore true ["HKEY_CLASSES_ROOT\\.386"])
        ["hkey_classes_root"] = some false
    ∧ resultFlagAt (getRegistryTree 8 sampleStore true ["HKEY_CLASSES_ROOT\\.386"])
        ["hkey_classes_root", ".386"] = some true := by
  exact ⟨by decide, by decide⟩

/-- C2 amended: in a successful `get_registry_tree` build whose reduced
paths are pairwise prefix-incomparable (as lower-cased segment lists), a
node of the returned tree carries `is_explicit = True` exactly when it
lies at or below the leaf of some reduced path whose existence probe
succeeded.  In particular the chain from the Root to a requested leaf —
the Root and the hive included — is NOT marked explicit; only the
mirrored leaf subtrees are. -/
theorem c2ExplicitAmended (fuel : Nat) (store : Store) (ig : Bool) (paths : List String)
    (t : RegistryKey)
    (hb : getRegistryTree fuel store ig paths = .ok t)
    (hpw : List.Pairwise sepPaths (removeContainedPaths paths)) :
    ∀ addr u, nodeAt t addr = some u →
      (u.isExplicit = true ↔ ∃ P, P ∈ removeContainedPaths paths
        ∧ probeClass store P = .found ∧ lsegs P <+: addr) := by
  unfold getRegistryTree at hb
  have hE0 : explicitInv store [] computerRoot := by
    intro addr u hn
    cases addr with
    | nil =>
      rw [nodeAtNil] at hn
      injection hn with h2
      refine iff_of_false ?_ ?_
      · rw [← h2]
        decide
      · rintro ⟨P, hP, _⟩
        exact absurd hP (List.not_mem_nil P)
    | cons a rest =>
      have hnone : nodeAt computerRoot (a :: rest) = none := rfl
      rw [hnone] at hn
      exact absurd hn (by simp)
  have hD0 : domInv store [] computerRoot := by
    intro addr u hn
    cases addr with
    | nil => exact Or.inl rfl
    | cons a rest =>
      have hnone : nodeAt computerRoot (a :: rest) = none := rfl
      rw [hnone] at hn
      exact absurd hn (by simp)
  have hcross0 : ∀ P, P ∈ removeContainedPaths paths →
      ∀ Q, Q ∈ ([] : List String) → sepPaths Q P := by
    intro P _ Q hQ
    exact absurd hQ (List.not_mem_nil Q)
  have hrec := buildPathsInv (removeContainedPaths paths) fuel store ig [] computerRoot t hb
    hcross0 hpw hE0 hD0
  have hEfin := hrec.1
  rw [List.nil_append] at hEfin
  exact hEfin

/-- Witness for the amended C2: in the concrete build of
`HKEY_CLASSES_ROOT\.386`, the node at the requested leaf address is
explicit, by the amended theorem applied at that address. -/
theorem c2ExplicitAmendedWitness :
    flagAt (okTree (getRegistryTree 8 sampleStore true ["HKEY_CLASSES_ROOT\\.386"]))
        ["hkey_classes_root", ".386"] = some true := by
  cases hres : getRegistryTree 8 sampleStore true ["HKEY_CLASSES_ROOT\\.386"] with
  | error e =>
    have hok : (getRegistryTree 8 sampleStore true ["HKEY_CLASSES_ROOT\\.386"]).isOk
        = true := by
      decide
    rw [hres] at hok
    simp [Except.isOk, Except.toBool] at hok
  | ok t =>
    cases hn : nodeAt t ["hkey_classes_root", ".386"] with
    | none =>
      have hsome : (flagAt (okTree (getRegistryTree 8 sampleStore true
          ["HKEY_CLASSES_ROOT\\.386"])) ["hkey_classes_root", ".386"]).isSome = true := by
        decide
      rw [hres] at hsome
      simp [okTree, flagAt, hn] at hsome
    | some u =>
      have hred : removeContainedPaths ["HKEY_CLASSES_ROOT\\.386"]
          = ["HKEY_CLASSES_ROOT\\.386"] := by decide
      have hpw : List.Pairwise sepPaths
          (removeContainedPaths ["HKEY_CLASSES_ROOT\\.386"]) := by
        rw [hred]
        simp
      have hiff := c2ExplicitAmended 8 sampleStore true ["HKEY_CLASSES_ROOT\\.386"] t hres hpw
        ["hkey_classes_root", ".386"] u hn
      have hex : u.isExplicit = true := by
        refine hiff.mpr ⟨"HKEY_CLASSES_ROOT\\.386", ?_, by decide, ?_⟩
        · rw [hred]
          simp
        · rw [show lsegs "HKEY_CLASSES_ROOT\\.386"
              = ["hkey_classes_root", ".386"] from by decide]
      simp [okTree, flagAt, hn, hex]
